import Mathlib

/-!
Verification of the journal text engine of the obsidian_hledger plugin.

The TypeScript sources are shallowly embedded: strings are `List Char`,
JavaScript numbers are rationals (`ℚ`) together with an explicit model of
`Number.prototype.toString` restricted to values with a terminating decimal
expansion (every concrete value appearing in the claims is of this form),
the vault file system is an explicit record of files and directories, and
the dynamically built regular expressions are interpreted by a small
backtracking matcher over the exact pattern strings the code constructs.
-/

namespace ObsHledger

/-- Strings are modelled as lists of characters. -/
abbrev Str : Type := List Char

/-- Opening brace character (kept out of string literals). -/
def lbrace : Char := Char.ofNat 123

/-- Closing brace character (kept out of string literals). -/
def rbrace : Char := Char.ofNat 125

/-- Decimal digit test, as used by the JavaScript regex class d. -/
def isDigitCh (c : Char) : Bool := ('0' ≤ c ∧ c ≤ '9' : Bool)

/-- Whitespace test modelling the JavaScript regex class s on the
characters that occur in journal text (space, tab, newline, carriage
return). -/
def isSpaceCh (c : Char) : Bool :=
  c = ' ' ∨ c = '\t' ∨ c = '\n' ∨ c = '\r'

/-- JavaScript `String.prototype.trimEnd`. -/
def jsTrimEnd (s : Str) : Str :=
  (s.reverse.dropWhile isSpaceCh).reverse

/-- JavaScript `String.prototype.trimStart`. -/
def jsTrimStart (s : Str) : Str := s.dropWhile isSpaceCh

/-- JavaScript `String.prototype.trim`. -/
def jsTrim (s : Str) : Str := jsTrimEnd (jsTrimStart s)

/-- The character of one decimal digit. -/
def digitChar (n : Nat) : Char := Char.ofNat (48 + n)

/-- Fuelled digit renderer (structural recursion, so that the kernel can
evaluate it on closed inputs). -/
def natDigitsAux : Nat → Nat → Str
  | _, 0 => []
  | n, fuel + 1 =>
    if n < 10 then [digitChar n] else natDigitsAux (n / 10) fuel ++ [digitChar (n % 10)]

/-- Decimal digits of a natural number (the rendering JavaScript template
interpolation and `toString` produce for integral values). -/
def natDigits (n : Nat) : Str := natDigitsAux n (n + 1)

/-- The fuel of `natDigitsAux` is irrelevant once it exceeds the number. -/
theorem natDigitsAux_fuel : ∀ f1 f2 n, n < f1 → n < f2 →
    natDigitsAux n f1 = natDigitsAux n f2 := by
  intro f1
  induction f1 with
  | zero => intro f2 n h1; omega
  | succ f ih =>
    intro f2 n h1 h2
    match f2 with
    | 0 => omega
    | g + 1 =>
      simp only [natDigitsAux]
      by_cases hn : n < 10
      · simp [hn]
      · simp only [hn, if_false]
        have hd : n / 10 < n := Nat.div_lt_self (by omega) (by omega)
        rw [ih g (n / 10) (by omega) (by omega)]

/-- Unfolding equation of `natDigits` in its natural recursive form. -/
theorem natDigits_eq (n : Nat) :
    natDigits n = if n < 10 then [digitChar n] else natDigits (n / 10) ++ [digitChar (n % 10)] := by
  show natDigitsAux n (n + 1) = _
  simp only [natDigitsAux]
  by_cases hn : n < 10
  · simp [hn]
  · simp only [hn, if_false]
    have hd : n / 10 < n := Nat.div_lt_self (by omega) (by omega)
    rw [natDigitsAux_fuel n (n / 10 + 1) (n / 10) (by omega) (by omega)]
    rfl

/-- JavaScript `String.prototype.split` with a single-character separator:
the result is always non-empty and keeps empty fields. -/
def jsSplitChar (sep : Char) : Str → List Str
  | [] => [[]]
  | c :: cs =>
    if c = sep then [] :: jsSplitChar sep cs
    else
      match jsSplitChar sep cs with
      | g :: gs => (c :: g) :: gs
      | [] => [[c]]

/-- Fuelled worker for the one-pass replacement below. -/
def replaceAllSubAux (pat rep : Str) : Nat → Str → Str
  | 0, s => s
  | fuel + 1, s =>
    match s with
    | [] => []
    | c :: cs =>
      if pat ≠ [] ∧ pat.isPrefixOf (c :: cs) then
        rep ++ replaceAllSubAux pat rep fuel ((c :: cs).drop pat.length)
      else
        c :: replaceAllSubAux pat rep fuel cs

/-- One-pass, left-to-right, non-overlapping replacement of every
occurrence of the literal pattern `pat` by `rep`, the semantics of
JavaScript `String.prototype.replace` with a global literal-text regex.
An empty pattern leaves the string unchanged. -/
def replaceAllSub (pat rep s : Str) : Str :=
  replaceAllSubAux pat rep s.length s

/-- The fuel of `replaceAllSubAux` is irrelevant once it reaches the
length of the string. -/
theorem replaceAllSubAux_fuel (pat rep : Str) : ∀ f1 f2 s, s.length ≤ f1 → s.length ≤ f2 →
    replaceAllSubAux pat rep f1 s = replaceAllSubAux pat rep f2 s := by
  intro f1
  induction f1 with
  | zero =>
    intro f2 s h1 h2
    have : s = [] := List.length_eq_zero.mp (by omega)
    subst this
    cases f2 <;> simp [replaceAllSubAux]
  | succ f ih =>
    intro f2 s h1 h2
    match f2, s with
    | 0, s =>
      have : s = [] := List.length_eq_zero.mp (by omega)
      subst this
      simp [replaceAllSubAux]
    | g + 1, [] => simp [replaceAllSubAux]
    | g + 1, c :: cs =>
      simp only [replaceAllSubAux]
      by_cases hp : pat ≠ [] ∧ pat.isPrefixOf (c :: cs)
      · rw [if_pos hp, if_pos hp]
        have hlen : 1 ≤ pat.length := by
          cases hpat : pat with
          | nil => exact absurd hpat hp.1
          | cons a l => simp
        have hd : ((c :: cs).drop pat.length).length ≤ f := by
          simp only [List.length_drop, List.length_cons]
          simp only [List.length_cons] at h1
          omega
        have hd2 : ((c :: cs).drop pat.length).length ≤ g := by
          simp only [List.length_drop, List.length_cons]
          simp only [List.length_cons] at h2
          omega
        rw [ih g _ hd hd2]
      · rw [if_neg hp, if_neg hp]
        simp only [List.length_cons] at h1 h2
        rw [ih g cs (by omega) (by omega)]

/-- Unfolding equation of `replaceAllSub` in its natural recursive form. -/
theorem replaceAllSub_eq (pat rep : Str) (c : Char) (cs : Str) :
    replaceAllSub pat rep (c :: cs) =
      if pat ≠ [] ∧ pat.isPrefixOf (c :: cs) then
        rep ++ replaceAllSub pat rep ((c :: cs).drop pat.length)
      else
        c :: replaceAllSub pat rep cs := by
  show replaceAllSubAux pat rep (c :: cs).length (c :: cs) = _
  simp only [List.length_cons, replaceAllSubAux]
  by_cases hp : pat ≠ [] ∧ pat.isPrefixOf (c :: cs)
  · rw [if_pos hp, if_pos hp]
    have hlen : 1 ≤ pat.length := by
      cases hpat : pat with
      | nil => exact absurd hpat hp.1
      | cons a l => simp
    rw [replaceAllSubAux_fuel pat rep cs.length ((c :: cs).drop pat.length).length
        ((c :: cs).drop pat.length) (by simp; omega) (by omega)]
    rfl
  · rw [if_neg hp, if_neg hp]
    rfl

/-- `replaceAllSub` on the empty string. -/
theorem replaceAllSub_nil (pat rep : Str) : replaceAllSub pat rep [] = [] := rfl

/-- Replacement of every character satisfying `cls` by the string `rep`,
the semantics of JavaScript `replace` with a global character-class regex
such as the class [YMD]. -/
def replaceClass (cls : Char → Bool) (rep : Str) : Str → Str
  | [] => []
  | c :: cs =>
    (if cls c then rep else [c]) ++ replaceClass cls rep cs

/-- Replacement of every character satisfying `cls` by a backslash
followed by the character itself, the semantics of JavaScript `replace`
with replacement text dollar-ampersand preceded by a backslash. -/
def escapeClass (cls : Char → Bool) : Str → Str
  | [] => []
  | c :: cs =>
    (if cls c then ['\\', c] else [c]) ++ escapeClass cls cs

/-- The three thousands-grouping / decimal-mark variants of the plugin
(`NumberFormat` in src/utils and src/handlers/entry-handler.ts). -/
inductive NumberFormat : Type
  | commaDot
  | spaceComma
  | dotComma
deriving DecidableEq, Repr

/-- Thousands grouping: inserts the separator before every digit that is
followed (inclusively) by a positive multiple of three digits, except at
the very start.  This is the effect of the source regex replace
on a string of decimal digits (the B( ?=(ddd)+(?!d)) pattern of
`formatNumber`). -/
def groupThousands (sep : Char) : Str → Str
  | [] => []
  | c :: cs =>
    c :: (if cs.length % 3 = 0 ∧ cs ≠ [] then sep :: groupThousands sep cs
          else groupThousands sep cs)

/-- The integer-part formatting step of `formatNumber`: a leading minus
sign is left alone (it sits at a word boundary, so the source regex never
inserts a separator right after it) and the digit run is grouped. -/
def formatIntegerPart (sep : Char) (s : Str) : Str :=
  match s with
  | '-' :: ds => '-' :: groupThousands sep ds
  | ds => groupThousands sep ds

/-- Thousands separator selected by the `switch` in `formatNumber`. -/
def thousandsSeparator : NumberFormat → Char
  | .commaDot => ','
  | .spaceComma => ' '
  | .dotComma => '.'

/-- Decimal mark selected by the `switch` in `formatNumber`. -/
def decimalMark : NumberFormat → Char
  | .commaDot => '.'
  | .spaceComma => ','
  | .dotComma => ','

/-- `formatNumber` from src/handlers/entry-handler.ts, acting on the
decimal string produced by `num.toString()`: split on the dot, default
the decimal part to 00 when missing or empty (the JavaScript
`parts[1] || '00'` treats the empty string as falsy), right-pad the
decimal part to at least two digits, group the integer part, and join
with the decimal mark.  The decimal part is never truncated or rounded. -/
def formatNumberStr (numStr : Str) (format : NumberFormat) : Str :=
  let parts := jsSplitChar '.' numStr
  let integerPart := parts.headD []
  let decimalPart0 := (parts.drop 1).headD []
  let decimalPart1 := if decimalPart0 = [] then ['0', '0'] else decimalPart0
  let decimalPart := decimalPart1 ++ List.replicate (2 - decimalPart1.length) '0'
  formatIntegerPart (thousandsSeparator format) integerPart
    ++ decimalMark format :: decimalPart

/-- Model of JavaScript `Number.prototype.toString` on a rational with a
terminating decimal expansion: sign, integer digits, and — when the value
is not an integer — a dot followed by the shortest digit sequence that
represents the fractional part exactly (the least number of digits after
which the remainder of the reduced fraction vanishes).  This agrees with
JavaScript on every such value whose shortest round-trip representation
is its exact decimal expansion (in particular on every concrete literal
appearing in the repository and its tests).  Computed directly on the
reduced numerator and denominator. -/
def numToString (q : ℚ) : Str :=
  let sign : Str := if q.num < 0 then ['-'] else []
  let an : Nat := q.num.natAbs
  let ip : Nat := an / q.den
  let rem : Nat := an % q.den
  let k : Nat := ((List.range 31).find? (fun k => rem * 10 ^ k % q.den = 0)).getD 30
  let fracNum : Nat := rem * 10 ^ k / q.den
  if k = 0 then sign ++ natDigits ip
  else
    let fd := natDigits fracNum
    sign ++ natDigits ip ++ '.' :: (List.replicate (k - fd.length) '0' ++ fd)

/-- `formatNumber(num, format)` of src/handlers/entry-handler.ts with the
JavaScript number modelled as a rational. -/
def formatNumber (num : ℚ) (format : NumberFormat) : Str :=
  formatNumberStr (numToString num) format

/-- A calendar date as handled by the moment.js calls of the plugin. -/
structure HDate : Type where
  year : Nat
  month : Nat
  day : Nat
deriving DecidableEq, Repr

/-- Leap-year rule of the Gregorian calendar (as in moment.js). -/
def isLeapYear (y : Nat) : Bool :=
  (y % 4 = 0 ∧ (y % 100 ≠ 0 ∨ y % 400 = 0) : Bool)

/-- Number of days of a month (as in moment.js). -/
def daysInMonth (y m : Nat) : Nat :=
  if m = 2 then (if isLeapYear y then 29 else 28)
  else if m = 4 ∨ m = 6 ∨ m = 9 ∨ m = 11 then 30
  else 31

/-- A real calendar date: moment.js marks a strictly parsed date invalid
when the month or the day overflows. -/
def validDate (y m d : Nat) : Bool :=
  (1 ≤ m ∧ m ≤ 12 ∧ 1 ≤ d ∧ d ≤ daysInMonth y m : Bool)

/-- Numeric key giving the chronological order of valid dates; used to
model the inclusive day-granularity `isBetween` comparison. -/
def dateKey (dt : HDate) : Nat :=
  dt.year * 10000 + dt.month * 100 + dt.day

/-- The moment.js format tokens that the plugin documents as supported
(section 4.1 of the specification): YYYY, YY, MM, M, DD, D, plus literal
separator characters.  A lone Y is tokenized like YY here; no theorem of
this file depends on a format containing a Y-run of odd length. -/
inductive MToken : Type
  | y4
  | y2
  | m2
  | m1
  | d2
  | d1
  | lit (c : Char)
deriving DecidableEq, Repr

/-- Tokenizer of a moment.js format string over the supported alphabet,
longest token first. -/
def tokenizeFormat : Str → List MToken
  | [] => []
  | 'Y' :: 'Y' :: 'Y' :: 'Y' :: rest => .y4 :: tokenizeFormat rest
  | 'Y' :: 'Y' :: rest => .y2 :: tokenizeFormat rest
  | 'Y' :: rest => .y2 :: tokenizeFormat rest
  | 'M' :: 'M' :: rest => .m2 :: tokenizeFormat rest
  | 'M' :: rest => .m1 :: tokenizeFormat rest
  | 'D' :: 'D' :: rest => .d2 :: tokenizeFormat rest
  | 'D' :: rest => .d1 :: tokenizeFormat rest
  | c :: rest => .lit c :: tokenizeFormat rest

/-- Left-pad a digit string with zeros to the given width. -/
def padZeros (w : Nat) (s : Str) : Str :=
  List.replicate (w - s.length) '0' ++ s

/-- Rendering of one format token by `moment.format`. -/
def renderToken (dt : HDate) : MToken → Str
  | .y4 => padZeros 4 (natDigits dt.year)
  | .y2 => padZeros 2 (natDigits (dt.year % 100))
  | .m2 => padZeros 2 (natDigits dt.month)
  | .m1 => natDigits dt.month
  | .d2 => padZeros 2 (natDigits dt.day)
  | .d1 => natDigits dt.day
  | .lit c => [c]

/-- `dateObj.format(fmt)` of moment.js on the supported token alphabet. -/
def momentFormat (dt : HDate) (fmt : Str) : Str :=
  ((tokenizeFormat fmt).map (renderToken dt)).flatten

/-- Numeric value of a digit string. -/
def digitsToNat (s : Str) : Nat :=
  s.foldl (fun a c => a * 10 + (c.toNat - 48)) 0

/-- Consume exactly `n` decimal digits. -/
def takeDigits (n : Nat) (s : Str) : Option (Nat × Str) :=
  let ds := s.take n
  if ds.length = n ∧ ds.all isDigitCh then some (digitsToNat ds, s.drop n)
  else none

/-- Consume one or two decimal digits, greedily and without backtracking,
the behaviour of the moment.js strict regex for the tokens M and D. -/
def takeOneTwoDigits (s : Str) : Option (Nat × Str) :=
  match takeDigits 2 s with
  | some r => some r
  | none => takeDigits 1 s

/-- moment.js maps a two-digit year of at most 68 into the 2000s and any
other two-digit year into the 1900s (`parseTwoDigitYear`). -/
def parseTwoDigitYear (n : Nat) : Nat :=
  if n ≤ 68 then 2000 + n else 1900 + n

/-- Token-by-token strict parsing, threading the year, month and day seen
so far.  At the end the input must be fully consumed (strict mode rejects
unused input), all three fields must have been produced (the plugin only
strictly parses formats carrying a full date; formats missing a field are
outside the model), and the date must not overflow. -/
def parseTokensAux : List MToken → Str → Option Nat → Option Nat → Option Nat → Option HDate
  | [], s, oy, om, od =>
    if s = [] then
      match oy, om, od with
      | some y, some m, some d => if validDate y m d then some ⟨y, m, d⟩ else none
      | _, _, _ => none
    else none
  | .y4 :: ts, s, _, om, od =>
    (takeDigits 4 s).bind (fun p => parseTokensAux ts p.2 (some p.1) om od)
  | .y2 :: ts, s, _, om, od =>
    (takeDigits 2 s).bind
      (fun p => parseTokensAux ts p.2 (some (parseTwoDigitYear p.1)) om od)
  | .m2 :: ts, s, oy, _, od =>
    (takeDigits 2 s).bind (fun p => parseTokensAux ts p.2 oy (some p.1) od)
  | .m1 :: ts, s, oy, _, od =>
    (takeOneTwoDigits s).bind (fun p => parseTokensAux ts p.2 oy (some p.1) od)
  | .d2 :: ts, s, oy, om, _ =>
    (takeDigits 2 s).bind (fun p => parseTokensAux ts p.2 oy om (some p.1))
  | .d1 :: ts, s, oy, om, _ =>
    (takeOneTwoDigits s).bind (fun p => parseTokensAux ts p.2 oy om (some p.1))
  | .lit c :: ts, s, oy, om, od =>
    match s with
    | [] => none
    | x :: rest => if x = c then parseTokensAux ts rest oy om od else none

/-- `moment(dateString, format, true)`: strict parsing against a format
over the supported token alphabet. -/
def momentStrictParse (s fmt : Str) : Option HDate :=
  parseTokensAux (tokenizeFormat fmt) s none none none

/-- Consume up to `n` decimal digits, at least one, greedily. -/
def takeUpToDigits (n : Nat) (s : Str) : Option (Nat × Str) :=
  let ds := (s.take n).takeWhile isDigitCh
  if ds = [] then none else some (digitsToNat ds, s.drop ds.length)

/-- Model of the forgiving (non-strict) `moment(str, 'YYYY-MM-DD')` call
used for the range bounds of `filterFilesByDateRange` and
`groupTransactionsByDate`: one to four year digits, any single non-digit
separator, one or two month digits, a separator, one or two day digits;
trailing input is ignored and the date must not overflow.  Strings in a
different shape yield an invalid moment. -/
def momentLenientYMD (s : Str) : Option HDate :=
  (takeUpToDigits 4 s).bind (fun py =>
    match py.2 with
    | [] => none
    | c1 :: r1 =>
      if isDigitCh c1 then none else
      (takeUpToDigits 2 r1).bind (fun pm =>
        match pm.2 with
        | [] => none
        | c2 :: r2 =>
          if isDigitCh c2 then none else
          (takeUpToDigits 2 r2).bind (fun pd =>
            if validDate py.1 pm.1 pd.1 then some ⟨py.1, pm.1, pd.1⟩ else none)))

/-- Inclusive day-granularity `isBetween` on possibly invalid moments: an
invalid operand makes the comparison false. -/
def betweenDays (d lo hi : Option HDate) : Bool :=
  match d, lo, hi with
  | some x, some a, some b => (dateKey a ≤ dateKey x ∧ dateKey x ≤ dateKey b : Bool)
  | _, _, _ => false

/-- Currency placement options of `FormatConfig`. -/
inductive CurrencyPlacement : Type
  | prepend
  | append
deriving DecidableEq, Repr

/-- `FormatConfig` of src/utils (re-exported through the handlers). -/
structure FormatConfig : Type where
  numberFormat : NumberFormat
  currencySpacing : Bool
  currencyPlacement : CurrencyPlacement
  lineLength : Nat
deriving Repr

/-- `formatAmount` from src/handlers/entry-handler.ts: the sign is pulled
out, the absolute value formatted, and a single minus sign is placed
immediately before the digits, regardless of currency placement. -/
def formatAmount (amount : ℚ) (currency : Str) (config : FormatConfig) : Str :=
  let isNegative := amount < 0
  let formattedNumber := formatNumber |amount| config.numberFormat
  let space : Str := if config.currencySpacing then [' '] else []
  match config.currencyPlacement with
  | .prepend =>
    if isNegative then currency ++ space ++ '-' :: formattedNumber
    else currency ++ space ++ formattedNumber
  | .append =>
    if isNegative then '-' :: formattedNumber ++ space ++ currency
    else formattedNumber ++ space ++ currency

/-- `formatLine` from src/handlers/entry-handler.ts.  The padding length
is `lineLength - account.length - formattedAmount.length` floored at zero
(natural subtraction); the optional exchange pair appends a literal
double-at annotation with the absolute exchange amount. -/
def formatLine (account : Str) (amount : ℚ) (currency : Str) (config : FormatConfig)
    (exchangeAmount : Option ℚ) (exchangeCurrency : Option Str) : Str :=
  let formattedAmount := formatAmount amount currency config
  let padding : Str :=
    List.replicate (config.lineLength - account.length - formattedAmount.length) ' '
  match exchangeAmount, exchangeCurrency with
  | some ea, some ec =>
    account ++ padding ++ formattedAmount ++ " @@ ".data ++ formatAmount |ea| ec config
  | _, _ => account ++ padding ++ formattedAmount

/-- One account/amount/currency input row of the entry modal
(`FormatLineInputEntry` in src/handlers/import-handler.ts). -/
structure FormatLineInputEntry : Type where
  account : Str
  amount : ℚ
  currency : Str
deriving DecidableEq, Repr

/-- `TransactionFormattingSettings` of src/handlers/import-handler.ts. -/
structure TransactionFormattingSettings : Type where
  includeDateInTransactions : Bool
  hledgerDateFormat : Str
deriving Repr

/-- The body rendered for a non-exchange entry list by
`formatHledgerTransaction` (the forEach branch). -/
def regularEntriesBody
    (padding : Str) (entries : List FormatLineInputEntry) (formatConfig : FormatConfig)
    (formatLineFn : Str → ℚ → Str → FormatConfig → Option ℚ → Option Str → Str) : Str :=
  (entries.map (fun e =>
    padding ++ formatLineFn e.account e.amount e.currency formatConfig none none ++ ['\n'])).flatten

/-- `formatHledgerTransaction` from src/handlers/import-handler.ts.  The
exchange classification is computed structurally inside the function:
exactly two entries, distinct currencies, both amounts non-zero.  In the
exchange branch the second amount is negated exactly when both entered
amounts are positive, and the absolute first amount together with the
first currency is handed to the line formatter as the exchange pair. -/
def formatHledgerTransaction (dateObj : HDate) (description : Str)
    (entries : List FormatLineInputEntry) (settings : TransactionFormattingSettings)
    (formatConfig : FormatConfig)
    (formatLineFn : Str → ℚ → Str → FormatConfig → Option ℚ → Option Str → Str) : Str :=
  let header : Str :=
    if settings.includeDateInTransactions then
      momentFormat dateObj settings.hledgerDateFormat
        ++ (if description ≠ [] then ' ' :: description else []) ++ ['\n']
    else if description ≠ [] then description ++ ['\n'] else []
  let padding : Str := if settings.includeDateInTransactions then "    ".data else []
  let body : Str :=
    match entries with
    | [e0, e1] =>
      if e0.currency ≠ e1.currency ∧ e0.amount ≠ 0 ∧ e1.amount ≠ 0 then
        padding ++ formatLineFn e0.account e0.amount e0.currency formatConfig none none
          ++ ['\n']
          ++ padding
          ++ formatLineFn e1.account
              (if 0 < e0.amount ∧ 0 < e1.amount then -e1.amount else e1.amount)
              e1.currency formatConfig (some |e0.amount|) (some e0.currency)
          ++ ['\n']
      else regularEntriesBody padding [e0, e1] formatConfig formatLineFn
    | es => regularEntriesBody padding es formatConfig formatLineFn
  jsTrimEnd (header ++ body)

/-- Outcome of the submit-button validation of the entry modal. -/
inductive VResult : Type
  | ok
  | emptyAccountError
  | zeroAmountError
  | unbalancedError (total : ℚ)
deriving DecidableEq, Repr

/-- The validation run by the submit-button click handler of
src/ui/entry-modal.ts: blank accounts first, then zero amounts, then —
only when the exchange toggle of the modal is off — the balance check
with tolerance 0.0001.  `isExchange` is the stored modal flag, toggled by
the transaction/exchange dropdown. -/
def submitValidation (entries : List FormatLineInputEntry) (isExchange : Bool) : VResult :=
  if 0 < (entries.filter (fun e => jsTrim e.account = [])).length then
    .emptyAccountError
  else if 0 < (entries.filter (fun e => e.amount = 0)).length then
    .zeroAmountError
  else if isExchange = false then
    if 1 / 10000 < |(entries.map (fun e => e.amount)).sum| then
      .unbalancedError ((entries.map (fun e => e.amount)).sum)
    else .ok
  else .ok

/-- The structural exchange classification described by the specification
(two postings, distinct currencies, both non-zero); identical to the test
computed inside `formatHledgerTransaction`.  The submit validation of the
modal does not consult it. -/
def isExchangeStructural (entries : List FormatLineInputEntry) : Bool :=
  match entries with
  | [e0, e1] => (e0.currency ≠ e1.currency ∧ e0.amount ≠ 0 ∧ e1.amount ≠ 0 : Bool)
  | _ => false

/-- The regex fragment the token substitutions insert: a backslash-d class
with a brace repetition spec. -/
def dRep (spec : Str) : Str :=
  '\\' :: 'd' :: lbrace :: (spec ++ [rbrace])

/-- The pattern string built by `createDateRegexPattern` of src/utils:
token substitutions longest-first (YYYY, YY, MM, M, DD, D), then literal
escaping of slash, dot and dash, in that order.  Each step is the
one-pass global `String.replace` of the source. -/
def createDateRegexPatternStr (fmt : Str) : Str :=
  let p := fmt
  let p := replaceAllSub ('Y' :: 'Y' :: 'Y' :: 'Y' :: []) (dRep ['4']) p
  let p := replaceAllSub ('Y' :: 'Y' :: []) (dRep ['2']) p
  let p := replaceAllSub ('M' :: 'M' :: []) (dRep ['2']) p
  let p := replaceAllSub ('M' :: []) (dRep ('1' :: ',' :: '2' :: [])) p
  let p := replaceAllSub ('D' :: 'D' :: []) (dRep ['2']) p
  let p := replaceAllSub ('D' :: []) (dRep ('1' :: ',' :: '2' :: [])) p
  let p := replaceAllSub ['/'] ('\\' :: '/' :: []) p
  let p := replaceAllSub ['.'] ('\\' :: '.' :: []) p
  let p := replaceAllSub ['-'] ('\\' :: '-' :: []) p
  p

/-- The pattern string built inside `extractTransactionDate` of src/utils:
every Y, M or D character becomes a backslash-d class, then dash and
slash (but not dot) are escaped. -/
def extractDatePatternStr (fmt : Str) : Str :=
  escapeClass (fun c => c = '-' ∨ c = '/')
    (replaceClass (fun c => c = 'Y' ∨ c = 'M' ∨ c = 'D') ('\\' :: 'd' :: []) fmt)

/-- Items of the regular-expression subset the generated patterns live in:
a fixed digit count, a bounded digit range, the any-character dot, and
literal characters. -/
inductive RItem : Type
  | digits (n : Nat)
  | digitsRange (a b : Nat)
  | anyChar
  | litc (c : Char)
deriving DecidableEq, Repr

/-- Fuelled worker for the pattern interpreter below. -/
def parseRegexItemsAux : Nat → Str → Option (List RItem)
  | 0, _ => none
  | fuel + 1, s =>
    match s with
    | [] => some []
    | c :: r =>
      if c = '\\' then
        match r with
        | [] => none
        | c2 :: r2 =>
          if c2 = 'd' then
            match r2 with
            | [] => some [RItem.digits 1]
            | b :: rest3 =>
              if b = lbrace then
                match rest3 with
                | d1 :: b2 :: rest =>
                  if isDigitCh d1 ∧ b2 = rbrace then
                    (parseRegexItemsAux fuel rest).map
                      (fun l => RItem.digits (d1.toNat - 48) :: l)
                  else if d1 = '1' ∧ b2 = ',' then
                    match rest with
                    | d2 :: b3 :: rest2 =>
                      if isDigitCh d2 ∧ b3 = rbrace then
                        (parseRegexItemsAux fuel rest2).map
                          (fun l => RItem.digitsRange 1 (d2.toNat - 48) :: l)
                      else none
                    | _ => none
                  else none
                | _ => none
              else (parseRegexItemsAux fuel r2).map (fun l => RItem.digits 1 :: l)
          else (parseRegexItemsAux fuel r2).map (fun l => RItem.litc c2 :: l)
      else if c = '.' then (parseRegexItemsAux fuel r).map (fun l => RItem.anyChar :: l)
      else (parseRegexItemsAux fuel r).map (fun l => RItem.litc c :: l)

/-- Interpreter turning a generated pattern string into items.  Backslash
followed by d is a digit class, optionally carrying a brace repetition of
the two shapes the plugin generates (a single-digit exact count, or a
lower bound of one with a single-digit upper bound); any other backslash
escape is a literal; a bare dot is the any-character class; every other
character stands for itself (no other regex metacharacter occurs in the
patterns the plugin builds from supported format strings). -/
def parseRegexItems (s : Str) : Option (List RItem) :=
  parseRegexItemsAux (s.length + 1) s

/-- Fuelled worker for the matcher below. -/
def matchItemsAux : Nat → List RItem → Str → Bool
  | 0, _, _ => false
  | fuel + 1, items, s =>
    match items with
    | [] => true
    | .digits n :: rest =>
      ((s.take n).length = n ∧ (s.take n).all isDigitCh : Bool) &&
        matchItemsAux fuel rest (s.drop n)
    | .digitsRange a b :: rest =>
      (List.range (b + 1)).any (fun k =>
        (a ≤ k ∧ (s.take k).length = k ∧ (s.take k).all isDigitCh : Bool) &&
          matchItemsAux fuel rest (s.drop k))
    | .anyChar :: rest =>
      match s with
      | [] => false
      | _ :: r => matchItemsAux fuel rest r
    | .litc c :: rest =>
      match s with
      | [] => false
      | x :: r => (x = c : Bool) && matchItemsAux fuel rest r

/-- Backtracking matcher for an item list against the start of a string
(the pattern is anchored at the start and tolerant of trailing input,
matching the caret-prefixed test the plugin performs). -/
def matchItems (items : List RItem) (s : Str) : Bool :=
  matchItemsAux (items.length + 1) items s

/-- Unfolding equation of `matchItems` on the empty item list. -/
theorem matchItems_nil (s : Str) : matchItems [] s = true := rfl

/-- Matching a fixed digit count then the rest. -/
theorem matchItems_digits (n : Nat) (rest : List RItem) (s : Str) :
    matchItems (.digits n :: rest) s =
      (((s.take n).length = n ∧ (s.take n).all isDigitCh : Bool) &&
        matchItems rest (s.drop n)) := rfl

/-- Matching a digit range then the rest: some width in the range works. -/
theorem matchItems_digitsRange (a b : Nat) (rest : List RItem) (s : Str) :
    matchItems (.digitsRange a b :: rest) s =
      (List.range (b + 1)).any (fun k =>
        (a ≤ k ∧ (s.take k).length = k ∧ (s.take k).all isDigitCh : Bool) &&
          matchItems rest (s.drop k)) := rfl

/-- Matching a literal character then the rest. -/
theorem matchItems_litc (c : Char) (rest : List RItem) (s : Str) :
    matchItems (.litc c :: rest) s =
      (match s with
       | [] => false
       | x :: r => (x = c : Bool) && matchItems rest r) := rfl

/-- Matching the any-character class then the rest. -/
theorem matchItems_anyChar (rest : List RItem) (s : Str) :
    matchItems (.anyChar :: rest) s =
      (match s with
       | [] => false
       | _ :: r => matchItems rest r) := rfl

/-- The fuel of `parseRegexItemsAux` is irrelevant once it exceeds the
length of the pattern. -/
theorem parseRegexItemsAux_fuel : ∀ f1 f2 s, s.length < f1 → s.length < f2 →
    parseRegexItemsAux f1 s = parseRegexItemsAux f2 s := by
  intro f1
  induction f1 with
  | zero => intro f2 s h1; omega
  | succ f ih =>
    intro f2 s h1 h2
    match f2 with
    | 0 => omega
    | g + 1 =>
      match s with
      | [] => rfl
      | c :: r =>
        simp only [List.length_cons] at h1 h2
        simp only [parseRegexItemsAux]
        by_cases hbs : c = '\\'
        · rw [if_pos hbs, if_pos hbs]
          match r with
          | [] => rfl
          | c2 :: r2 =>
            simp only [List.length_cons] at h1 h2
            dsimp only
            by_cases hd : c2 = 'd'
            · rw [if_pos hd, if_pos hd]
              match r2 with
              | [] => rfl
              | b :: rest3 =>
                simp only [List.length_cons] at h1 h2
                dsimp only
                by_cases hb : b = lbrace
                · rw [if_pos hb, if_pos hb]
                  match rest3 with
                  | [] => rfl
                  | [d1] => rfl
                  | d1 :: b2 :: rest =>
                    simp only [List.length_cons] at h1 h2
                    dsimp only
                    by_cases hc1 : isDigitCh d1 ∧ b2 = rbrace
                    · rw [if_pos hc1, if_pos hc1, ih g rest (by omega) (by omega)]
                    · rw [if_neg hc1, if_neg hc1]
                      by_cases hc2 : d1 = '1' ∧ b2 = ','
                      · rw [if_pos hc2, if_pos hc2]
                        match rest with
                        | [] => rfl
                        | [d2] => rfl
                        | d2 :: b3 :: rest2 =>
                          simp only [List.length_cons] at h1 h2
                          dsimp only
                          by_cases hc3 : isDigitCh d2 ∧ b3 = rbrace
                          · rw [if_pos hc3, if_pos hc3, ih g rest2 (by omega) (by omega)]
                          · rw [if_neg hc3, if_neg hc3]
                      · rw [if_neg hc2, if_neg hc2]
                · rw [if_neg hb, if_neg hb, ih g (b :: rest3)
                    (by simp only [List.length_cons]; omega)
                    (by simp only [List.length_cons]; omega)]
            · rw [if_neg hd, if_neg hd, ih g r2 (by omega) (by omega)]
        · rw [if_neg hbs, if_neg hbs]
          by_cases hdot : c = '.'
          · rw [if_pos hdot, if_pos hdot, ih g r (by omega) (by omega)]
          · rw [if_neg hdot, if_neg hdot, ih g r (by omega) (by omega)]

/-- `createDateRegexPattern(fmt).test(line)`: the compiled date matcher
of the plugin applied at the start of a line.  A pattern outside the
interpreted subset matches nothing. -/
def matchesDateLine (fmt line : Str) : Bool :=
  match parseRegexItems (createDateRegexPatternStr fmt) with
  | some items => matchItems items line
  | none => false

/-- Whether `extractTransactionDate(transaction, fmt)` of src/utils
returns a non-null date, i.e. whether its anchored pattern accepts a
prefix of the transaction text. -/
def extractAccepts (transaction fmt : Str) : Bool :=
  match parseRegexItems (extractDatePatternStr fmt) with
  | some items => matchItems items transaction
  | none => false

/-- Format segments of the compared fragment: the fixed-width date tokens
and the dash and slash separators. -/
inductive Seg : Type
  | y4 | y2 | m2 | d2 | dash | slash
deriving DecidableEq, Repr

/-- Concatenation of a per-segment rendering over a segment list. -/
def renderWith (f : Seg → Str) : List Seg → Str
  | [] => []
  | s :: r => f s ++ renderWith f r

/-- The raw format text of a segment. -/
def segRaw : Seg → Str
  | .y4 => 'Y' :: 'Y' :: 'Y' :: 'Y' :: []
  | .y2 => 'Y' :: 'Y' :: []
  | .m2 => 'M' :: 'M' :: []
  | .d2 => 'D' :: 'D' :: []
  | .dash => '-' :: []
  | .slash => '/' :: []

/-- Segment text after the YYYY substitution step. -/
def seg1 : Seg → Str
  | .y4 => dRep ['4']
  | s => segRaw s

/-- Segment text after the YY substitution step. -/
def seg2 : Seg → Str
  | .y4 => dRep ['4']
  | .y2 => dRep ['2']
  | s => segRaw s

/-- Segment text after the MM substitution step. -/
def seg3 : Seg → Str
  | .y4 => dRep ['4']
  | .dash => '-' :: []
  | .slash => '/' :: []
  | .d2 => 'D' :: 'D' :: []
  | _ => dRep ['2']

/-- Segment text after the DD substitution step. -/
def seg5 : Seg → Str
  | .y4 => dRep ['4']
  | .dash => '-' :: []
  | .slash => '/' :: []
  | _ => dRep ['2']

/-- Segment text after the slash-escaping step. -/
def seg7 : Seg → Str
  | .slash => '\\' :: '/' :: []
  | s => seg5 s

/-- Segment text of the finished matcher pattern. -/
def segPat : Seg → Str
  | .dash => '\\' :: '-' :: []
  | s => seg7 s

/-- Segment text of the finished extractor pattern. -/
def segExtract : Seg → Str
  | .y4 => '\\' :: 'd' :: '\\' :: 'd' :: '\\' :: 'd' :: '\\' :: 'd' :: []
  | .dash => '\\' :: '-' :: []
  | .slash => '\\' :: '/' :: []
  | _ => '\\' :: 'd' :: '\\' :: 'd' :: []

/-- Items of the matcher pattern per segment. -/
def segItemM : Seg → List RItem
  | .y4 => [RItem.digits 4]
  | .dash => [RItem.litc '-']
  | .slash => [RItem.litc '/']
  | _ => [RItem.digits 2]

/-- Items of the extractor pattern per segment. -/
def segItemE : Seg → List RItem
  | .y4 => [RItem.digits 1, RItem.digits 1, RItem.digits 1, RItem.digits 1]
  | .dash => [RItem.litc '-']
  | .slash => [RItem.litc '/']
  | _ => [RItem.digits 1, RItem.digits 1]

/-- Concatenation of per-segment item lists over a segment list. -/
def itemsWith (g : Seg → List RItem) : List Seg → List RItem
  | [] => []
  | s :: r => g s ++ itemsWith g r

/-- Well-formedness of a segment list: a two-digit-year segment is never
directly followed by another year segment (otherwise the four adjacent Y
characters would be consumed by the YYYY substitution). -/
def goodSegs : List Seg → Bool
  | [] => true
  | Seg.y2 :: r =>
    (match r with
     | Seg.y4 :: _ => false
     | Seg.y2 :: _ => false
     | _ => true) && goodSegs r
  | _ :: r => goodSegs r

/-- Whether a token list continues with a literal separator (or ends):
after a one-or-two-digit token this guarantees the greedy parse stops at
the token boundary. -/
def nextLitOrEnd : List MToken → Bool
  | [] => true
  | .lit _ :: _ => true
  | _ => false

/-- Round-trip-safe token lists: no two-digit-year token, every literal
separator is a non-digit, and every one-or-two-digit token is followed by
a literal or the end of the format. -/
def toksOK : List MToken → Bool
  | [] => true
  | .y4 :: ts => toksOK ts
  | .m2 :: ts => toksOK ts
  | .d2 :: ts => toksOK ts
  | .m1 :: ts => nextLitOrEnd ts && toksOK ts
  | .d1 :: ts => nextLitOrEnd ts && toksOK ts
  | .lit c :: ts => (!(isDigitCh c)) && toksOK ts
  | .y2 :: _ => false

/-- Whether a token list carries a four-digit-year token. -/
def hasY4 (toks : List MToken) : Bool := toks.any (fun t => t = .y4)

/-- Whether a token list carries a month token. -/
def hasMonthTok (toks : List MToken) : Bool := toks.any (fun t => t = .m2 ∨ t = .m1)

/-- Whether a token list carries a day token. -/
def hasDayTok (toks : List MToken) : Bool := toks.any (fun t => t = .d2 ∨ t = .d1)

/-- Whether a journal line is indented (starts with a space or a tab). -/
def isIndentedLine (line : Str) : Bool :=
  match line with
  | [] => false
  | c :: _ => c = ' ' ∨ c = '\t'

/-- JavaScript `Array.prototype.join` with a newline separator. -/
def joinNL : List Str → Str
  | [] => []
  | [x] => x
  | x :: y :: xs => x ++ '\n' :: joinNL (y :: xs)

/-- The line loop of `parseJournalTransactions` of src/utils: a line
passing the date test flushes the current transaction and opens a new
one; an indented line is appended to an open transaction; every other
line is ignored. -/
def parseJournalAux (test : Str → Bool) : List Str → List Str → List Str
  | [], cur => if cur = [] then [] else [joinNL cur]
  | line :: rest, cur =>
    if test line then
      (if cur = [] then [] else [joinNL cur]) ++ parseJournalAux test rest [line]
    else if cur ≠ [] ∧ isIndentedLine line then
      parseJournalAux test rest (cur ++ [line])
    else
      parseJournalAux test rest cur

/-- `parseJournalTransactions(content, hledgerDateFormat)` of src/utils. -/
def parseJournalTransactions (content fmt : Str) : List Str :=
  parseJournalAux (matchesDateLine fmt) (jsSplitChar '\n' content) []

/-- The grouping described by the specification for the whole-journal
split: each group is a date-matching line kept verbatim, followed by
exactly the indented lines among the following lines up to the next
date-matching line or the end of input; all other lines belong to no
group. -/
def specJournalGroups (test : Str → Bool) : List Str → List (List Str)
  | [] => []
  | l :: ls =>
    if test l then
      (l :: (ls.takeWhile (fun x => ¬ test x)).filter isIndentedLine)
        :: specJournalGroups test (ls.dropWhile (fun x => ¬ test x))
    else specJournalGroups test ls
termination_by ls => ls.length
decreasing_by
  · exact Nat.lt_succ_of_le (List.dropWhile_sublist _).length_le
  · simp

/-- Whether a line contains a run of three or more whitespace characters,
the posting heuristic regex of `formatTransaction`. -/
def hasThreeSpaces : Str → Bool
  | a :: b :: c :: r =>
    (isSpaceCh a ∧ isSpaceCh b ∧ isSpaceCh c) ∨ hasThreeSpaces (b :: c :: r)
  | _ => false

/-- Four spaces of posting indentation. -/
def indent4 : Str := ' ' :: ' ' :: ' ' :: ' ' :: []

/-- `formatTransaction(transactionString, formattedDate, hledgerDateFormat)`
of src/handlers/export-handler.ts (the date-aware revision).  The posting
heuristic (a run of three or more whitespace characters in the first
line) is checked first; only otherwise is the already-has-a-date branch
taken, which keeps the first line verbatim and re-indents the remaining
lines to exactly four spaces; otherwise the date is prefixed onto the
first line and the rest is indented. -/
def formatTransaction (transactionString formattedDate fmt : Str) : Str :=
  let lines := jsSplitChar '\n' transactionString
  let firstLine := jsTrimEnd (lines.headD [])
  let hasDateAlready := extractAccepts firstLine fmt
  if hasThreeSpaces firstLine then
    let indentedLines := lines.map (fun l => indent4 ++ jsTrimEnd l)
    formattedDate ++ '\n' :: joinNL indentedLines
  else if hasDateAlready then
    let restOfLines := lines.drop 1
    let normalized := restOfLines.map (fun l => indent4 ++ jsTrimStart l)
    firstLine ++
      (if normalized ≠ [] then '\n' :: joinNL normalized else [])
  else
    let header := formattedDate ++ ' ' :: firstLine
    let indentedRest := (lines.drop 1).map (fun l => indent4 ++ jsTrimEnd l)
    header ++
      (if indentedRest ≠ [] then '\n' :: joinNL indentedRest else [])

/-- The vault as seen through the `DataAdapter`: files with contents, and
a set of directories. -/
structure VaultFS : Type where
  files : List (Str × Str)
  dirs : List Str
deriving Repr

/-- `adapter.exists(p)`: true for a file or a directory. -/
def fsExists (fs : VaultFS) (p : Str) : Bool :=
  fs.files.any (fun e => e.1 = p) ∨ fs.dirs.any (fun d => d = p)

/-- Content of a file, if present. -/
def fsLookup (fs : VaultFS) (p : Str) : Option Str :=
  (fs.files.find? (fun e => e.1 = p)).map (fun e => e.2)

/-- `adapter.read(p)` (defined on existing files). -/
def fsRead (fs : VaultFS) (p : Str) : Str :=
  (fsLookup fs p).getD []

/-- `adapter.write(p, c)`: create or overwrite. -/
def fsWrite (fs : VaultFS) (p c : Str) : VaultFS :=
  ⟨fs.files.filter (fun e => e.1 ≠ p) ++ [(p, c)], fs.dirs⟩

/-- `adapter.mkdir(p)`. -/
def fsMkdir (fs : VaultFS) (p : Str) : VaultFS :=
  ⟨fs.files, p :: fs.dirs⟩

/-- Backslash-to-slash path normalization (`normalizePath` of src/utils). -/
def normalizePathStr (p : Str) : Str :=
  p.map (fun c => if c = '\\' then '/' else c)

/-- `getParentDirectory` of src/utils: normalize, remove one trailing
slash, and take everything before the last remaining slash (empty when
there is none). -/
def getParentDirectory (path : Str) : Str :=
  let n := normalizePathStr path
  let w := if n.getLast? = some '/' then n.dropLast else n
  match (w.reverse).findIdx? (fun c => c = '/') with
  | some i => w.take (w.length - 1 - i)
  | none => []

/-- `ensureDirectoryExists` of src/utils, as a pure state transformer: a
missing directory is created, everything else is left alone (the adapter
of the model never fails). -/
def ensureDirectoryExists (directoryPath : Str) (fs : VaultFS) : VaultFS :=
  if directoryPath = [] then fs
  else if fsExists fs directoryPath then fs
  else fsMkdir fs directoryPath

/-- The candidate path `basePath_counter extension` built by the loop of
`generateIncrementedFilePath`. -/
def incrCandidate (basePath ext : Str) (counter : Nat) : Str :=
  basePath ++ '_' :: (natDigits counter ++ ext)

/-- Split a path at its last dot, as `generateIncrementedFilePath` does
with `lastIndexOf`; a path without a dot has an empty extension. -/
def splitAtLastDot (p : Str) : Str × Str :=
  match (p.reverse).findIdx? (fun c => c = '.') with
  | some i => (p.take (p.length - 1 - i), p.drop (p.length - 1 - i))
  | none => (p, [])

/-- `generateIncrementedFilePath` of src/handlers/export-handler.ts: the
first counter (from one upwards) whose candidate path does not exist.
The search range is bounded by the size of the store, which by a counting
argument always contains a free candidate. -/
def generateIncrementedFilePath (originalPath : Str) (fs : VaultFS) : Str :=
  let bp := (splitAtLastDot originalPath).1
  let ext := (splitAtLastDot originalPath).2
  let bound := fs.files.length + fs.dirs.length + 1
  match ((List.range bound).map (fun k => k + 1)).find?
      (fun n => ¬ fsExists fs (incrCandidate bp ext n)) with
  | some n => incrCandidate bp ext n
  | none => incrCandidate bp ext (bound + 1)

/-- `writeJournalToFile(filePath, content, adapter, replaceExisting)` of
src/handlers/export-handler.ts: ensure the parent directory, then either
overwrite (replace requested or no clash) or write the whole content to
the first free incremented path. -/
def writeJournalToFile (filePath content : Str) (replaceExisting : Bool)
    (fs : VaultFS) : VaultFS :=
  let folder := getParentDirectory filePath
  let fs1 := if folder ≠ [] then ensureDirectoryExists folder fs else fs
  if fsExists fs1 filePath ∧ replaceExisting = false then
    fsWrite fs1 (generateIncrementedFilePath filePath fs1) content
  else
    fsWrite fs1 filePath content

/-- Index of the first occurrence of `pat` in a string. -/
def findSub (pat : Str) : Str → Option Nat
  | [] => if pat = [] then some 0 else none
  | c :: cs =>
    if pat.isPrefixOf (c :: cs) then some 0
    else (findSub pat cs).map (fun i => i + 1)

/-- The opening fence marker owned by the plugin. -/
def fenceOpen : Str := "```hledger\n".data

/-- The closing fence marker. -/
def fenceClose : Str := "```".data

/-- First match of the lazy fence regex (triple-backtick hledger fence up
to the next triple backtick): text before the match, the captured group,
and the text after the match. -/
def findFence (s : Str) : Option (Str × Str × Str) :=
  (findSub fenceOpen s).bind (fun i =>
    let pre := s.take i
    let afterOpen := s.drop (i + fenceOpen.length)
    (findSub fenceClose afterOpen).map (fun j =>
      (pre, afterOpen.take j, afterOpen.drop (j + fenceClose.length))))

/-- `writeTransactionsToNote(targetPath, transactionsContent,
transactionHeader, adapter)` of src/handlers/import-handler.ts: an
existing fence is replaced wholesale by a fence holding exactly the new
transactions text; a note without a fence gets header and fence appended;
a missing note is created.  (The model assumes the transactions text
contains no dollar character, so that the JavaScript replacement string
is inserted verbatim.) -/
def writeTransactionsToNote (targetPath transactionsContent transactionHeader : Str)
    (fs : VaultFS) : VaultFS :=
  if fsExists fs targetPath then
    let existingContent := fsRead fs targetPath
    match findFence existingContent with
    | some (pre, _, post) =>
      fsWrite fs targetPath
        (pre ++ fenceOpen ++ transactionsContent ++ fenceClose ++ post)
    | none =>
      fsWrite fs targetPath
        (jsTrimEnd existingContent ++ '\n' :: '\n' :: transactionHeader
          ++ '\n' :: '\n' :: fenceOpen ++ transactionsContent ++ fenceClose)
  else
    fsWrite fs targetPath
      (transactionHeader ++ '\n' :: '\n' :: fenceOpen
        ++ transactionsContent ++ fenceClose)

/-- Lower-casing of the ASCII characters relevant to the md-extension
checks. -/
def toLowerCh (c : Char) : Char :=
  if 'A' ≤ c ∧ c ≤ 'Z' then Char.ofNat (c.toNat + 32) else c

/-- Whether a path ends in .md, case-insensitively (the
`toLowerCase().endsWith('.md')` test). -/
def endsWithMdCI (s : Str) : Bool :=
  (s.reverse.take 3).reverse.map toLowerCh = '.' :: 'm' :: 'd' :: []

/-- JavaScript `replace(/\.md$/i, '')`: strip one trailing .md of any
case. -/
def stripMdCI (s : Str) : Str :=
  if endsWithMdCI s then s.take (s.length - 3) else s

/-- Path info computed by `calculateDailyNotePathInfo` of
src/handlers/entry-handler.ts. -/
structure DailyNotePathInfo : Type where
  targetFolder : Str
  targetPath : Str
deriving Repr

/-- Collapse double slashes, the `replace(/\/\//g, '/')` cleanup. -/
def collapseSlashes (s : Str) : Str :=
  replaceAllSub ('/' :: '/' :: []) ['/'] s

/-- `calculateDailyNotePathInfo(dateObj, baseFolder, dateFormat)` of
src/handlers/entry-handler.ts: a slash inside the format splits it into a
folder format and a file format; the rendered pieces are joined under the
base folder and double slashes are collapsed. -/
def calculateDailyNotePathInfo (dateObj : HDate) (baseFolder dateFormat : Str) :
    DailyNotePathInfo :=
  let parts := jsSplitChar '/' dateFormat
  let pieces :=
    if dateFormat.any (fun c => c = '/') then
      let fileFormat := parts.getLastD []
      let folderFormat := List.intercalate ['/'] parts.dropLast
      let subFolder := if folderFormat ≠ [] then momentFormat dateObj folderFormat else []
      (subFolder, momentFormat dateObj fileFormat ++ '.' :: 'm' :: 'd' :: [])
    else
      ([], momentFormat dateObj dateFormat ++ '.' :: 'm' :: 'd' :: [])
  let targetFolder :=
    if pieces.1 ≠ [] then baseFolder ++ '/' :: pieces.1 else baseFolder
  let cleanedTargetFolder := collapseSlashes targetFolder
  let targetPath := collapseSlashes (cleanedTargetFolder ++ '/' :: pieces.2)
  ⟨cleanedTargetFolder, targetPath⟩

/-- `getDateFromFilename(filePath, format)` of src/utils: basename, strip
the markdown extension, strictly parse. -/
def getDateFromFilename (filePath format : Str) : Option HDate :=
  let filename := (jsSplitChar '/' filePath).getLastD []
  let dateString := stripMdCI filename
  momentStrictParse dateString format

/-- `filterFilesByDateRange(files, fromDateStr, toDateStr, dateFormat)` of
src/handlers/export-handler.ts (the revision with the hierarchical
branch): the bounds are read with the fixed, non-strict YYYY-MM-DD
format; each candidate is kept when it ends in .md and its basename (or,
for formats containing a slash, its last directory plus basename) parses
strictly under `dateFormat` to a date inside the inclusive range. -/
def filterFilesByDateRange (files : List Str) (fromDateStr toDateStr dateFormat : Str) :
    List Str :=
  let fromMoment := momentLenientYMD fromDateStr
  let toMoment := momentLenientYMD toDateStr
  files.filter (fun filePath =>
    let n := normalizePathStr filePath
    if ¬ endsWithMdCI n then false
    else if dateFormat.any (fun c => c = '/') then
      let pathParts := jsSplitChar '/' n
      if 2 ≤ pathParts.length then
        let dirName := (pathParts.drop (pathParts.length - 2)).headD []
        let fileName := stripMdCI (pathParts.getLastD [])
        let formatParts := jsSplitChar '/' dateFormat
        let dirFormat := formatParts.headD []
        match momentStrictParse dirName dirFormat with
        | none => false
        | some _ =>
          betweenDays (momentStrictParse (dirName ++ '/' :: fileName) dateFormat)
            fromMoment toMoment
      else false
    else
      let basename := stripMdCI ((jsSplitChar '/' n).getLastD [])
      if basename = [] then false
      else betweenDays (momentStrictParse basename dateFormat) fromMoment toMoment)

/-! ## Store lemmas -/

/-- Reading back the file just written. -/
theorem fsLookup_fsWrite_self (fs : VaultFS) (p c : Str) :
    fsLookup (fsWrite fs p c) p = some c := by
  simp only [fsLookup, fsWrite, List.find?_append]
  have hnone : (fs.files.filter (fun e => e.1 ≠ p)).find? (fun e => e.1 = p) = none := by
    rw [List.find?_eq_none]
    intro e he
    have := (List.mem_filter.mp he).2
    simpa using this
  rw [hnone]
  simp

/-- Filtering out the entries of one key does not change the first entry
found for a different key. -/
theorem find?_filter_ne (p q : Str) (h : q ≠ p) :
    ∀ l : List (Str × Str),
      (l.filter (fun e => e.1 ≠ p)).find? (fun e => e.1 = q) =
        l.find? (fun e => e.1 = q) := by
  intro l
  induction l with
  | nil => rfl
  | cons x xs ih =>
    by_cases hx : x.1 = p
    · have hxq : ¬ x.1 = q := by
        rw [hx]
        exact fun hh => h hh.symm
      rw [List.filter_cons_of_neg (by simp [hx]), List.find?_cons_of_neg _ (by simp [hxq])]
      exact ih
    · rw [List.filter_cons_of_pos (by simp [hx])]
      by_cases hq : x.1 = q
      · rw [List.find?_cons_of_pos _ (by simp [hq]), List.find?_cons_of_pos _ (by simp [hq])]
      · rw [List.find?_cons_of_neg _ (by simp [hq]), List.find?_cons_of_neg _ (by simp [hq])]
        exact ih

/-- Writing one file leaves every other file unchanged. -/
theorem fsLookup_fsWrite_other (fs : VaultFS) (p c q : Str) (h : q ≠ p) :
    fsLookup (fsWrite fs p c) q = fsLookup fs q := by
  simp only [fsLookup, fsWrite, List.find?_append, find?_filter_ne p q h fs.files]
  have hlast : ([(p, c)].find? (fun e => e.1 = q)) = none := by
    rw [List.find?_cons_of_neg _ (by simp; exact fun hh => h hh.symm)]
    rfl
  rw [hlast]
  cases fs.files.find? (fun e => e.1 = q) <;> rfl

/-! ## Claim theorems -/

/-- C1.  The claim is contradicted by the code, and the code is
contradicted by its own test-suite (tests/handlers/entry-handler.test.ts
expects `formatNumber(1000.555, 'comma-dot')` to round to 1,000.56):
`formatNumber` keeps the decimal part of `toString` verbatim, padding to
at least two digits but never rounding, so 1000.555 renders with a
three-digit decimal part and 1000.554 with one as well. -/
theorem c1_formatNumber_does_not_round :
    formatNumber (1000555 / 1000 : ℚ) NumberFormat.commaDot = "1,000.555".data ∧
    formatNumber (1000554 / 1000 : ℚ) NumberFormat.commaDot = "1,000.554".data ∧
    "1,000.555".data ≠ "1,000.56".data := by
  have h1 : (1000555 / 1000 : ℚ) =
      Rat.mk' 200111 200 (by norm_num) (by norm_num [Nat.Coprime]) := by
    rw [Rat.mk'_eq_divInt, Rat.divInt_eq_div]
    norm_num
  have h2 : (1000554 / 1000 : ℚ) =
      Rat.mk' 500277 500 (by norm_num) (by norm_num [Nat.Coprime]) := by
    rw [Rat.mk'_eq_divInt, Rat.divInt_eq_div]
    norm_num
  refine ⟨?_, ?_, by decide⟩
  · rw [h1]
    decide
  · rw [h2]
    decide

/-- C5 counterexample.  A posting list that is structurally an exchange
transaction (two postings, distinct currencies, both non-zero) is
rejected as unbalanced by the submit validation when the modal toggle is
off: validation consults the stored flag, not the structural
classification, so the claim as stated fails. -/
theorem c5_counterexample :
    isExchangeStructural
      [⟨"A".data, 100, "$".data⟩, ⟨"B".data, 90, "€".data⟩] = true ∧
    submitValidation
      [⟨"A".data, 100, "$".data⟩, ⟨"B".data, 90, "€".data⟩] false =
      VResult.unbalancedError 190 := by
  constructor
  · decide
  · have hsum : (([⟨"A".data, 100, "$".data⟩,
        ⟨"B".data, 90, "€".data⟩] : List FormatLineInputEntry).map
          (fun e => e.amount)).sum = 190 := by
      norm_num
    simp only [submitValidation, hsum]
    norm_num
    decide

/-- C5 amended.  The submit validation checks, in order: a blank account
fails with the empty-account error; otherwise an amount exactly zero
fails with the zero-amount error; otherwise, exactly when the stored
exchange toggle of the modal is off, a signed total larger than 1e-4 in
absolute value fails with the unbalanced error carrying the total; in
every other case it succeeds.  The structural exchange classification
plays no role. -/
theorem c5_amended_validation_order (entries : List FormatLineInputEntry)
    (isExchange : Bool) :
    (submitValidation entries isExchange = VResult.emptyAccountError ↔
      ∃ e ∈ entries, jsTrim e.account = []) ∧
    (submitValidation entries isExchange = VResult.zeroAmountError ↔
      (∀ e ∈ entries, jsTrim e.account ≠ []) ∧ ∃ e ∈ entries, e.amount = 0) ∧
    (∀ t, submitValidation entries isExchange = VResult.unbalancedError t ↔
      (∀ e ∈ entries, jsTrim e.account ≠ []) ∧ (∀ e ∈ entries, e.amount ≠ 0) ∧
      isExchange = false ∧ t = (entries.map (fun e => e.amount)).sum ∧
      1 / 10000 < |t|) ∧
    (submitValidation entries isExchange = VResult.ok ↔
      (∀ e ∈ entries, jsTrim e.account ≠ []) ∧ (∀ e ∈ entries, e.amount ≠ 0) ∧
      (isExchange = true ∨ |(entries.map (fun e => e.amount)).sum| ≤ 1 / 10000)) := by
  have hfa : (0 < (entries.filter (fun e => jsTrim e.account = [])).length) ↔
      ∃ e ∈ entries, jsTrim e.account = [] := by
    rw [← List.countP_eq_length_filter, List.countP_pos_iff]
    simp
  have hfz : (0 < (entries.filter (fun e => e.amount = 0)).length) ↔
      ∃ e ∈ entries, e.amount = 0 := by
    rw [← List.countP_eq_length_filter, List.countP_pos_iff]
    simp
  simp only [submitValidation]
  split_ifs with ha hz hex hbal
  · obtain ⟨e, he, hp⟩ := hfa.mp ha
    refine ⟨⟨fun _ => ⟨e, he, hp⟩, fun _ => rfl⟩, ?_, ?_, ?_⟩
    · constructor
      · intro h
        exact absurd h (by simp)
      · rintro ⟨hall, -⟩
        exact absurd hp (hall e he)
    · intro t
      constructor
      · intro h
        exact absurd h (by simp)
      · rintro ⟨hall, -⟩
        exact absurd hp (hall e he)
    · constructor
      · intro h
        exact absurd h (by simp)
      · rintro ⟨hall, -⟩
        exact absurd hp (hall e he)
  · have hallacc : ∀ e ∈ entries, jsTrim e.account ≠ [] := by
      intro e he hp
      exact ha (hfa.mpr ⟨e, he, hp⟩)
    obtain ⟨e, he, hp⟩ := hfz.mp hz
    refine ⟨?_, ⟨fun _ => ⟨hallacc, e, he, hp⟩, fun _ => rfl⟩, ?_, ?_⟩
    · constructor
      · intro h
        exact absurd h (by simp)
      · rintro ⟨e2, he2, hp2⟩
        exact absurd hp2 (hallacc e2 he2)
    · intro t
      constructor
      · intro h
        exact absurd h (by simp)
      · rintro ⟨-, hallz, -⟩
        exact absurd hp (hallz e he)
    · constructor
      · intro h
        exact absurd h (by simp)
      · rintro ⟨-, hallz, -⟩
        exact absurd hp (hallz e he)
  all_goals
    have hallacc : ∀ e ∈ entries, jsTrim e.account ≠ [] := by
      intro e he hp
      exact ha (hfa.mpr ⟨e, he, hp⟩)
  all_goals
    have hallz : ∀ e ∈ entries, e.amount ≠ 0 := by
      intro e he hp
      exact hz (hfz.mpr ⟨e, he, hp⟩)
  · refine ⟨?_, ?_, ?_, ?_⟩
    · constructor
      · intro h
        exact absurd h (by simp)
      · rintro ⟨e2, he2, hp2⟩
        exact absurd hp2 (hallacc e2 he2)
    · constructor
      · intro h
        exact absurd h (by simp)
      · rintro ⟨-, e2, he2, hp2⟩
        exact absurd hp2 (hallz e2 he2)
    · intro t
      constructor
      · intro h
        have ht : (entries.map (fun e => e.amount)).sum = t := by
          injection h
        subst ht
        exact ⟨hallacc, hallz, hex, rfl, hbal⟩
      · rintro ⟨-, -, -, ht, -⟩
        rw [ht]
    · constructor
      · intro h
        exact absurd h (by simp)
      · rintro ⟨-, -, hor⟩
        rcases hor with htr | hle
        · rw [htr] at hex
          exact absurd hex (by simp)
        · exact absurd hbal (not_lt.mpr hle)
  · refine ⟨?_, ?_, ?_, ?_⟩
    · constructor
      · intro h
        exact absurd h (by simp)
      · rintro ⟨e2, he2, hp2⟩
        exact absurd hp2 (hallacc e2 he2)
    · constructor
      · intro h
        exact absurd h (by simp)
      · rintro ⟨-, e2, he2, hp2⟩
        exact absurd hp2 (hallz e2 he2)
    · intro t
      constructor
      · intro h
        exact absurd h (by simp)
      · rintro ⟨-, -, -, ht, hlt⟩
        subst ht
        exact absurd hlt hbal
    · exact ⟨fun _ => ⟨hallacc, hallz, Or.inr (not_lt.mp hbal)⟩, fun _ => rfl⟩
  · have hext : isExchange = true := by
      cases isExchange
      · exact absurd rfl hex
      · rfl
    refine ⟨?_, ?_, ?_, ?_⟩
    · constructor
      · intro h
        exact absurd h (by simp)
      · rintro ⟨e2, he2, hp2⟩
        exact absurd hp2 (hallacc e2 he2)
    · constructor
      · intro h
        exact absurd h (by simp)
      · rintro ⟨-, e2, he2, hp2⟩
        exact absurd hp2 (hallz e2 he2)
    · intro t
      constructor
      · intro h
        exact absurd h (by simp)
      · rintro ⟨-, -, hf, -⟩
        exact hex hf
    · exact ⟨fun _ => ⟨hallacc, hallz, Or.inl hext⟩, fun _ => rfl⟩

/-- C7.  On a two-entry input whose structural classification is an
exchange (distinct currencies, both amounts non-zero), the formatter
renders the first entry as a normal posting line and the second with its
amount negated exactly when both entered amounts are positive, followed
by the literal double-at separator and the formatted absolute value of
the first amount in the first currency. -/
theorem c7_exchange_rendering (dateObj : HDate) (description : Str)
    (e0 e1 : FormatLineInputEntry) (settings : TransactionFormattingSettings)
    (cfg : FormatConfig)
    (hcur : e0.currency ≠ e1.currency) (h0 : e0.amount ≠ 0) (h1 : e1.amount ≠ 0) :
    formatHledgerTransaction dateObj description [e0, e1] settings cfg formatLine =
      jsTrimEnd (
        (if settings.includeDateInTransactions then
          momentFormat dateObj settings.hledgerDateFormat
            ++ (if description ≠ [] then ' ' :: description else []) ++ ['\n']
        else if description ≠ [] then description ++ ['\n'] else [])
        ++ (if settings.includeDateInTransactions then "    ".data else [])
        ++ formatLine e0.account e0.amount e0.currency cfg none none ++ ['\n']
        ++ (if settings.includeDateInTransactions then "    ".data else [])
        ++ (e1.account
            ++ List.replicate (cfg.lineLength - e1.account.length -
                (formatAmount (if 0 < e0.amount ∧ 0 < e1.amount then -e1.amount
                  else e1.amount) e1.currency cfg).length) ' '
            ++ formatAmount (if 0 < e0.amount ∧ 0 < e1.amount then -e1.amount
                else e1.amount) e1.currency cfg
            ++ " @@ ".data ++ formatAmount |e0.amount| e0.currency cfg)
        ++ ['\n']) := by
  have hiff : e0.currency ≠ e1.currency ∧ e0.amount ≠ 0 ∧ e1.amount ≠ 0 :=
    ⟨hcur, h0, h1⟩
  have hfl : ∀ (account : Str) (amount : ℚ) (currency : Str) (ea : ℚ) (ec : Str),
      formatLine account amount currency cfg (some ea) (some ec) =
        account ++ List.replicate
            (cfg.lineLength - account.length - (formatAmount amount currency cfg).length) ' '
          ++ formatAmount amount currency cfg ++ " @@ ".data ++ formatAmount |ea| ec cfg := by
    intro account amount currency ea ec
    simp only [formatLine, List.append_assoc]
  simp only [formatHledgerTransaction, if_pos hiff, hfl, abs_abs, List.append_assoc]

/-- C7 witness at a concrete exchange entry pair. -/
theorem c7_exchange_rendering_witness :
    ("$".data : Str) ≠ "€".data ∧
    formatHledgerTransaction ⟨2023, 1, 15⟩ "Exchange".data
      [⟨"Assets:USD".data, 100, "$".data⟩, ⟨"Assets:EUR".data, 90, "€".data⟩]
      ⟨true, "YYYY-MM-DD".data⟩ ⟨NumberFormat.commaDot, true, CurrencyPlacement.prepend, 40⟩
      formatLine =
      jsTrimEnd (
        (if (true : Bool) then
          momentFormat ⟨2023, 1, 15⟩ "YYYY-MM-DD".data
            ++ (if ("Exchange".data : Str) ≠ [] then ' ' :: "Exchange".data else []) ++ ['\n']
        else if ("Exchange".data : Str) ≠ [] then "Exchange".data ++ ['\n'] else [])
        ++ (if (true : Bool) then "    ".data else [])
        ++ formatLine "Assets:USD".data 100 "$".data
            ⟨NumberFormat.commaDot, true, CurrencyPlacement.prepend, 40⟩ none none ++ ['\n']
        ++ (if (true : Bool) then "    ".data else [])
        ++ ("Assets:EUR".data
            ++ List.replicate (40 - ("Assets:EUR".data : Str).length -
                (formatAmount (if (0 : ℚ) < 100 ∧ (0 : ℚ) < 90 then -(90 : ℚ) else 90)
                  "€".data ⟨NumberFormat.commaDot, true, CurrencyPlacement.prepend, 40⟩).length) ' '
            ++ formatAmount (if (0 : ℚ) < 100 ∧ (0 : ℚ) < 90 then -(90 : ℚ) else 90)
                "€".data ⟨NumberFormat.commaDot, true, CurrencyPlacement.prepend, 40⟩
            ++ " @@ ".data ++ formatAmount |(100 : ℚ)| "$".data
                ⟨NumberFormat.commaDot, true, CurrencyPlacement.prepend, 40⟩)
        ++ ['\n']) := by
  refine ⟨by decide, ?_⟩
  exact c7_exchange_rendering ⟨2023, 1, 15⟩ "Exchange".data
    ⟨"Assets:USD".data, 100, "$".data⟩ ⟨"Assets:EUR".data, 90, "€".data⟩
    ⟨true, "YYYY-MM-DD".data⟩ ⟨NumberFormat.commaDot, true, CurrencyPlacement.prepend, 40⟩
    (by decide) (by norm_num) (by norm_num)

/-- C2 counterexample.  Importing into a daily note whose fence already
holds a transaction discards the old fence content: the result holds
exactly the new text, and the old transaction text no longer occurs
anywhere in the note.  The claim (append after the existing
transactions, separated by one blank line) therefore fails. -/
theorem c2_counterexample :
    fsRead (writeTransactionsToNote "note.md".data "NEW $7\n".data "## H".data
        ⟨[("note.md".data, "# N\n\n```hledger\nOLD $5\n```\ntail".data)], []⟩)
      "note.md".data =
      "# N\n\n```hledger\nNEW $7\n```\ntail".data ∧
    findSub "OLD $5\n".data "# N\n\n```hledger\nOLD $5\n```\ntail".data ≠ none ∧
    findSub "OLD $5\n".data "# N\n\n```hledger\nNEW $7\n```\ntail".data = none := by
  refine ⟨by decide, by decide, by decide⟩

/-- C2 amended.  When the target note exists and contains a fenced
hledger block, `writeTransactionsToNote` replaces the whole fence content
with exactly the new transactions text: the note text before and after
the first fence is preserved, and the previous fence content is dropped
rather than appended to. -/
theorem c2_amended_fence_replaced (fs : VaultFS)
    (targetPath cont hdr pre mid post : Str)
    (hex : fsExists fs targetPath = true)
    (hf : findFence (fsRead fs targetPath) = some (pre, mid, post)) :
    fsRead (writeTransactionsToNote targetPath cont hdr fs) targetPath =
      pre ++ fenceOpen ++ cont ++ fenceClose ++ post := by
  simp only [writeTransactionsToNote, hex, if_true, hf]
  simp only [fsRead, fsLookup_fsWrite_self, Option.getD_some, List.append_assoc]

/-- C2 amended, witness: the counterexample note, with the fence
decomposition computed concretely. -/
theorem c2_amended_fence_replaced_witness :
    fsExists ⟨[("note.md".data, "# N\n\n```hledger\nOLD $5\n```\ntail".data)], []⟩
      "note.md".data = true ∧
    findFence (fsRead ⟨[("note.md".data, "# N\n\n```hledger\nOLD $5\n```\ntail".data)], []⟩
      "note.md".data) = some ("# N\n\n".data, "OLD $5\n".data, "\ntail".data) ∧
    fsRead (writeTransactionsToNote "note.md".data "NEW $7\n".data "## H".data
        ⟨[("note.md".data, "# N\n\n```hledger\nOLD $5\n```\ntail".data)], []⟩)
      "note.md".data =
      "# N\n\n".data ++ fenceOpen ++ "NEW $7\n".data ++ fenceClose ++ "\ntail".data :=
  ⟨by decide, by decide,
    c2_amended_fence_replaced
      ⟨[("note.md".data, "# N\n\n```hledger\nOLD $5\n```\ntail".data)], []⟩
      "note.md".data "NEW $7\n".data "## H".data
      "# N\n\n".data "OLD $5\n".data "\ntail".data (by decide) (by decide)⟩

/-! ## Digit and candidate-path lemmas -/

/-- The digit characters are read back by `digitsToNat`. -/
theorem digitChar_toNat : ∀ n < 10, (digitChar n).toNat = 48 + n := by decide

/-- `digitsToNat` of a string extended by one digit. -/
theorem digitsToNat_append_digit (a : Str) (c : Char) :
    digitsToNat (a ++ [c]) = 10 * digitsToNat a + (c.toNat - 48) := by
  simp only [digitsToNat, List.foldl_append, List.foldl_cons, List.foldl_nil]
  omega

/-- `natDigits` renders and `digitsToNat` reads back. -/
theorem digitsToNat_natDigits (n : Nat) : digitsToNat (natDigits n) = n := by
  induction n using Nat.strong_induction_on with
  | _ n ih =>
    rw [natDigits_eq]
    by_cases hn : n < 10
    · simp only [hn, if_true]
      show digitsToNat ([] ++ [digitChar n]) = n
      rw [digitsToNat_append_digit, digitChar_toNat n hn]
      simp [digitsToNat]
    · simp only [hn, if_false]
      rw [digitsToNat_append_digit, ih (n / 10) (Nat.div_lt_self (by omega) (by omega)),
        digitChar_toNat (n % 10) (Nat.mod_lt n (by omega))]
      omega

/-- `natDigits` is injective. -/
theorem natDigits_inj {a b : Nat} (h : natDigits a = natDigits b) : a = b := by
  have := congrArg digitsToNat h
  rwa [digitsToNat_natDigits, digitsToNat_natDigits] at this

/-- A number always renders at least one digit. -/
theorem natDigits_length_pos (n : Nat) : 0 < (natDigits n).length := by
  rw [natDigits_eq]
  by_cases hn : n < 10 <;> simp [hn]

/-- The counter determines the candidate path. -/
theorem incrCandidate_inj (bp ext : Str) {a b : Nat}
    (h : incrCandidate bp ext a = incrCandidate bp ext b) : a = b := by
  unfold incrCandidate at h
  have h2 := List.append_cancel_left h
  have h3 : natDigits a ++ ext = natDigits b ++ ext := by
    injection h2
  exact natDigits_inj (List.append_cancel_right h3)

/-- Length of a candidate path. -/
theorem incrCandidate_length (bp ext : Str) (n : Nat) :
    (incrCandidate bp ext n).length =
      bp.length + 1 + (natDigits n).length + ext.length := by
  simp only [incrCandidate, List.length_append, List.length_cons]
  omega

/-- The two halves of the last-dot split reassemble the path. -/
theorem splitAtLastDot_length (p : Str) :
    (splitAtLastDot p).1.length + (splitAtLastDot p).2.length = p.length := by
  unfold splitAtLastDot
  cases hi : (p.reverse).findIdx? (fun c => c = '.') with
  | none => simp
  | some i =>
    simp only [List.length_take, List.length_drop]
    omega

/-- A candidate path is strictly longer than the original path. -/
theorem incrCandidate_length_gt (p : Str) (n : Nat) :
    p.length < (incrCandidate (splitAtLastDot p).1 (splitAtLastDot p).2 n).length := by
  rw [incrCandidate_length]
  have h1 := splitAtLastDot_length p
  have h2 := natDigits_length_pos n
  omega

/-- The parent directory is empty or strictly shorter than the path. -/
theorem getParentDirectory_short (p : Str) :
    getParentDirectory p = [] ∨ (getParentDirectory p).length < p.length := by
  by_cases hp : p = []
  · subst hp
    left
    rfl
  · unfold getParentDirectory
    set n := normalizePathStr p with hn
    set w := if n.getLast? = some '/' then n.dropLast else n with hw
    have hwlen : w.length ≤ p.length := by
      have hnlen : n.length = p.length := List.length_map _ _
      rw [hw]
      split_ifs
      · simp only [List.length_dropLast]
        omega
      · omega
    have hplen : 0 < p.length := List.length_pos.mpr hp
    cases hi : (w.reverse).findIdx? (fun c => c = '/') with
    | none =>
      left
      simp only [hi]
    | some i =>
      right
      simp only [hi, List.length_take]
      rw [← hw]
      omega

/-- `ensureDirectoryExists` never touches the files. -/
theorem ensureDirectoryExists_files (d : Str) (fs : VaultFS) :
    (ensureDirectoryExists d fs).files = fs.files := by
  unfold ensureDirectoryExists fsMkdir
  split_ifs <;> rfl

/-- `ensureDirectoryExists` preserves existence. -/
theorem fsExists_ensure_mono (d : Str) (fs : VaultFS) (p : Str)
    (h : fsExists fs p = true) : fsExists (ensureDirectoryExists d fs) p = true := by
  unfold ensureDirectoryExists fsMkdir
  split_ifs
  · exact h
  · exact h
  · simp only [fsExists, decide_eq_true_eq, List.any_cons] at h ⊢
    rcases h with hf | hd
    · exact Or.inl hf
    · exact Or.inr (by simp [hd])

/-- `ensureDirectoryExists` changes existence only at the directory it
creates. -/
theorem fsExists_ensure_other (d : Str) (fs : VaultFS) (p : Str) (h : p ≠ d) :
    fsExists (ensureDirectoryExists d fs) p = fsExists fs p := by
  unfold ensureDirectoryExists fsMkdir
  split_ifs
  · rfl
  · rfl
  · have hdp : (decide (d = p) : Bool) = false := decide_eq_false (fun hh => h hh.symm)
    simp [fsExists, List.any_cons, hdp]

/-- `ensureDirectoryExists` never changes file contents. -/
theorem fsLookup_ensure (d : Str) (fs : VaultFS) (p : Str) :
    fsLookup (ensureDirectoryExists d fs) p = fsLookup fs p := by
  simp only [fsLookup, ensureDirectoryExists_files]

/-- What a successful search over the counters 1, 2, … means: the found
counter satisfies the predicate, lies in the searched interval, and every
smaller counter fails it. -/
theorem find?_range_map_spec (pred : Nat → Bool) :
    ∀ (b a n : Nat), (((List.range b).map (fun k => k + a)).find? pred = some n) →
      pred n = true ∧ a ≤ n ∧ n < a + b ∧ ∀ m, a ≤ m → m < n → pred m = false := by
  intro b
  induction b with
  | zero =>
    intro a n h
    simp [List.range_zero] at h
  | succ b ih =>
    intro a n h
    rw [List.range_succ_eq_map, List.map_cons, List.map_map] at h
    have hcomp : ((fun k => k + a) ∘ fun k => k + 1) = fun k => k + (a + 1) := by
      funext k
      simp only [Function.comp]
      omega
    rw [hcomp] at h
    by_cases hpa : pred (0 + a) = true
    · rw [List.find?_cons_of_pos _ hpa] at h
      have hn : n = 0 + a := by
        injection h with h2
        exact h2.symm
      subst hn
      refine ⟨hpa, by omega, by omega, ?_⟩
      intro m hm1 hm2
      omega
    · rw [List.find?_cons_of_neg _ hpa] at h
      obtain ⟨hp, hge, hlt, hmin⟩ := ih (a + 1) n h
      refine ⟨hp, by omega, by omega, ?_⟩
      intro m hm1 hm2
      by_cases hma : m = a
      · subst hma
        rw [Bool.eq_false_iff]
        intro hh
        exact hpa (by simpa using hh)
      · exact hmin m (by omega) hm2

/-- An existing path is one of the recorded files or directories. -/
theorem fsExists_mem (fs : VaultFS) (p : Str) (h : fsExists fs p = true) :
    p ∈ fs.files.map Prod.fst ++ fs.dirs := by
  simp only [fsExists, decide_eq_true_eq] at h
  rcases h with hf | hd
  · obtain ⟨e, he, hp⟩ := List.any_eq_true.mp hf
    refine List.mem_append.mpr (Or.inl ?_)
    refine List.mem_map.mpr ⟨e, he, ?_⟩
    exact of_decide_eq_true hp
  · obtain ⟨e, he, hp⟩ := List.any_eq_true.mp hd
    refine List.mem_append.mpr (Or.inr ?_)
    have : e = p := of_decide_eq_true hp
    exact this ▸ he

/-- By counting, some counter between 1 and the size of the store plus
one yields a candidate path that does not exist yet, so the search of
`generateIncrementedFilePath` always succeeds inside its bound. -/
theorem findCounter_exists (fs : VaultFS) (bp ext : Str) :
    ∃ n, ((List.range (fs.files.length + fs.dirs.length + 1)).map (fun k => k + 1)).find?
      (fun n => ¬ fsExists fs (incrCandidate bp ext n)) = some n := by
  set bound := fs.files.length + fs.dirs.length + 1 with hbound
  cases hfind : ((List.range bound).map (fun k => k + 1)).find?
      (fun n => ¬ fsExists fs (incrCandidate bp ext n)) with
  | some n => exact ⟨n, rfl⟩
  | none =>
    exfalso
    have hex : ∀ k < bound, fsExists fs (incrCandidate bp ext (k + 1)) = true := by
      intro k hk
      have hm : k + 1 ∈ (List.range bound).map (fun k => k + 1) :=
        List.mem_map.mpr ⟨k, List.mem_range.mpr hk, rfl⟩
      have h2 := List.find?_eq_none.mp hfind (k + 1) hm
      simpa using h2
    have hinj : Function.Injective (fun k : Nat => incrCandidate bp ext (k + 1)) := by
      intro a b hab
      have := incrCandidate_inj bp ext hab
      omega
    have hsub : (Finset.range bound).image (fun k => incrCandidate bp ext (k + 1)) ⊆
        (fs.files.map Prod.fst ++ fs.dirs).toFinset := by
      intro x hx
      obtain ⟨k, hk, hxk⟩ := Finset.mem_image.mp hx
      rw [List.mem_toFinset]
      exact hxk ▸ fsExists_mem fs _ (hex k (Finset.mem_range.mp hk))
    have hcard1 : ((Finset.range bound).image
        (fun k => incrCandidate bp ext (k + 1))).card = bound := by
      rw [Finset.card_image_of_injective _ hinj, Finset.card_range]
    have hcard2 : ((fs.files.map Prod.fst ++ fs.dirs).toFinset).card ≤ bound - 1 := by
      calc ((fs.files.map Prod.fst ++ fs.dirs).toFinset).card
          ≤ (fs.files.map Prod.fst ++ fs.dirs).length := List.toFinset_card_le _
        _ = bound - 1 := by
            simp only [List.length_append, List.length_map]
            omega
    have := Finset.card_le_card hsub
    omega

/-- C3.  Writing a derived journal to an existing path: with replace
requested the file is overwritten with exactly the new content; without
it the existing file is left untouched and the whole content goes to the
first free incremented candidate path (underscore counter before the
extension), never concatenated onto the existing file. -/
theorem c3_journal_write_policy (fs : VaultFS) (filePath content : Str)
    (hex : fsExists fs filePath = true) :
    fsLookup (writeJournalToFile filePath content true fs) filePath = some content ∧
    fsLookup (writeJournalToFile filePath content false fs) filePath =
      fsLookup fs filePath ∧
    ∃ n, 1 ≤ n ∧
      fsExists fs (incrCandidate (splitAtLastDot filePath).1
        (splitAtLastDot filePath).2 n) = false ∧
      (∀ m, 1 ≤ m → m < n → fsExists fs (incrCandidate (splitAtLastDot filePath).1
        (splitAtLastDot filePath).2 m) = true) ∧
      fsLookup (writeJournalToFile filePath content false fs)
        (incrCandidate (splitAtLastDot filePath).1 (splitAtLastDot filePath).2 n) =
        some content := by
  set bp := (splitAtLastDot filePath).1 with hbp
  set ext := (splitAtLastDot filePath).2 with hext
  set folder := getParentDirectory filePath with hfolderdef
  set fs1 := if folder ≠ [] then ensureDirectoryExists folder fs else fs with hfs1
  have hfiles1 : fs1.files = fs.files := by
    rw [hfs1]
    split_ifs
    · exact ensureDirectoryExists_files _ _
    · rfl
  have hlookup1 : ∀ q, fsLookup fs1 q = fsLookup fs q := by
    intro q
    simp [fsLookup, hfiles1]
  have hexists_eq : ∀ q, q ≠ folder → fsExists fs1 q = fsExists fs q := by
    intro q hq
    rw [hfs1]
    split_ifs
    · exact fsExists_ensure_other folder fs q hq
    · rfl
  have hex1 : fsExists fs1 filePath = true := by
    rw [hfs1]
    split_ifs
    · exact fsExists_ensure_mono _ _ _ hex
    · exact hex
  have hcand_gt : ∀ k, filePath.length < (incrCandidate bp ext k).length := by
    intro k
    rw [hbp, hext]
    exact incrCandidate_length_gt filePath k
  have hcand_ne_folder : ∀ k, incrCandidate bp ext k ≠ folder := by
    intro k hk
    rcases getParentDirectory_short filePath with h0 | h0
    · rw [← hfolderdef] at h0
      rw [h0] at hk
      have := hcand_gt k
      rw [hk] at this
      simp at this
    · rw [← hfolderdef] at h0
      have := hcand_gt k
      rw [hk] at this
      omega
  have hcand_ne_path : ∀ k, incrCandidate bp ext k ≠ filePath := by
    intro k hk
    have := hcand_gt k
    rw [hk] at this
    omega
  have hcand_exists : ∀ k, fsExists fs1 (incrCandidate bp ext k) =
      fsExists fs (incrCandidate bp ext k) :=
    fun k => hexists_eq _ (hcand_ne_folder k)
  refine ⟨?_, ?_, ?_⟩
  · show fsLookup
      (if fsExists fs1 filePath ∧ true = false then
        fsWrite fs1 (generateIncrementedFilePath filePath fs1) content
      else fsWrite fs1 filePath content) filePath = some content
    rw [if_neg (by simp)]
    exact fsLookup_fsWrite_self fs1 filePath content
  · show fsLookup
      (if fsExists fs1 filePath ∧ false = false then
        fsWrite fs1 (generateIncrementedFilePath filePath fs1) content
      else fsWrite fs1 filePath content) filePath = fsLookup fs filePath
    rw [if_pos ⟨hex1, rfl⟩]
    obtain ⟨n, hn⟩ := findCounter_exists fs1 bp ext
    have hgen : generateIncrementedFilePath filePath fs1 = incrCandidate bp ext n := by
      unfold generateIncrementedFilePath
      dsimp only
      rw [← hbp, ← hext, hn]
    rw [hgen, fsLookup_fsWrite_other fs1 _ content filePath
      (fun hh => hcand_ne_path n hh.symm)]
    exact hlookup1 filePath
  · obtain ⟨n, hn⟩ := findCounter_exists fs1 bp ext
    obtain ⟨hpn, hge, -, hmin⟩ := find?_range_map_spec _ _ _ _ hn
    have hgen : generateIncrementedFilePath filePath fs1 = incrCandidate bp ext n := by
      unfold generateIncrementedFilePath
      dsimp only
      rw [← hbp, ← hext, hn]
    refine ⟨n, hge, ?_, ?_, ?_⟩
    · have hfree : fsExists fs1 (incrCandidate bp ext n) = false := by
        have := of_decide_eq_true hpn
        exact Bool.eq_false_iff.mpr this
      rw [← hcand_exists n]
      exact hfree
    · intro m hm1 hm2
      have := hmin m hm1 hm2
      have hmt : fsExists fs1 (incrCandidate bp ext m) = true := by
        by_contra hcon
        have hf : fsExists fs1 (incrCandidate bp ext m) = false :=
          Bool.eq_false_iff.mpr hcon
        rw [decide_eq_false_iff_not] at this
        · exact this (by rw [hf]; simp)
      rw [← hcand_exists m]
      exact hmt
    · show fsLookup
        (if fsExists fs1 filePath ∧ false = false then
          fsWrite fs1 (generateIncrementedFilePath filePath fs1) content
        else fsWrite fs1 filePath content) (incrCandidate bp ext n) = some content
      rw [if_pos ⟨hex1, rfl⟩, hgen]
      exact fsLookup_fsWrite_self fs1 _ content

/-- C3 witness: a store already holding out.journal and out_1.journal;
the increment policy lands on out_2.journal. -/
theorem c3_journal_write_policy_witness :
    fsExists ⟨[("j/out.journal".data, "a".data), ("j/out_1.journal".data, "b".data)], []⟩
      "j/out.journal".data = true ∧
    (fsLookup (writeJournalToFile "j/out.journal".data "NEW".data true
        ⟨[("j/out.journal".data, "a".data), ("j/out_1.journal".data, "b".data)], []⟩)
      "j/out.journal".data = some "NEW".data ∧
    fsLookup (writeJournalToFile "j/out.journal".data "NEW".data false
        ⟨[("j/out.journal".data, "a".data), ("j/out_1.journal".data, "b".data)], []⟩)
      "j/out.journal".data =
      fsLookup ⟨[("j/out.journal".data, "a".data), ("j/out_1.journal".data, "b".data)], []⟩
        "j/out.journal".data ∧
    ∃ n, 1 ≤ n ∧
      fsExists ⟨[("j/out.journal".data, "a".data), ("j/out_1.journal".data, "b".data)], []⟩
        (incrCandidate (splitAtLastDot "j/out.journal".data).1
          (splitAtLastDot "j/out.journal".data).2 n) = false ∧
      (∀ m, 1 ≤ m → m < n →
        fsExists ⟨[("j/out.journal".data, "a".data), ("j/out_1.journal".data, "b".data)], []⟩
          (incrCandidate (splitAtLastDot "j/out.journal".data).1
            (splitAtLastDot "j/out.journal".data).2 m) = true) ∧
      fsLookup (writeJournalToFile "j/out.journal".data "NEW".data false
          ⟨[("j/out.journal".data, "a".data), ("j/out_1.journal".data, "b".data)], []⟩)
        (incrCandidate (splitAtLastDot "j/out.journal".data).1
          (splitAtLastDot "j/out.journal".data).2 n) = some "NEW".data) :=
  ⟨by decide,
    c3_journal_write_policy
      ⟨[("j/out.journal".data, "a".data), ("j/out_1.journal".data, "b".data)], []⟩
      "j/out.journal".data "NEW".data (by decide)⟩

/-! ## Split and trim lemmas -/

/-- No field produced by the split contains the separator. -/
theorem jsSplitChar_mem_ne (sep : Char) :
    ∀ (s : Str) (x : Str), x ∈ jsSplitChar sep s → sep ∉ x := by
  intro s
  induction s with
  | nil =>
    intro x hx
    simp only [jsSplitChar, List.mem_singleton] at hx
    subst hx
    simp
  | cons c cs ih =>
    intro x hx
    simp only [jsSplitChar] at hx
    by_cases hc : c = sep
    · rw [if_pos hc] at hx
      rcases List.mem_cons.mp hx with h0 | h0
      · subst h0
        simp
      · exact ih x h0
    · rw [if_neg hc] at hx
      cases hsplit : jsSplitChar sep cs with
      | nil =>
        rw [hsplit] at hx
        simp only [List.mem_singleton] at hx
        subst hx
        intro hmem
        rcases List.mem_singleton.mp hmem with h0
        exact hc h0.symm
      | cons g gs =>
        rw [hsplit] at hx
        rcases List.mem_cons.mp hx with h0 | h0
        · subst h0
          intro hmem
          rcases List.mem_cons.mp hmem with h0 | h0
          · exact hc h0.symm
          · exact ih g (hsplit ▸ List.mem_cons_self g gs) h0
        · exact ih x (hsplit ▸ List.mem_cons.mpr (Or.inr h0))

/-- The split never yields the empty list. -/
theorem jsSplitChar_ne_nil (sep : Char) (s : Str) : jsSplitChar sep s ≠ [] := by
  cases s with
  | nil => simp [jsSplitChar]
  | cons c cs =>
    simp only [jsSplitChar]
    by_cases hc : c = sep
    · simp [hc]
    · rw [if_neg hc]
      cases jsSplitChar sep cs <;> simp

/-- Splitting a separator-free string yields that one field. -/
theorem jsSplitChar_of_not_mem (sep : Char) :
    ∀ (s : Str), sep ∉ s → jsSplitChar sep s = [s] := by
  intro s
  induction s with
  | nil => intro _; rfl
  | cons c cs ih =>
    intro h
    have hc : ¬ c = sep := fun hh => h (hh ▸ List.mem_cons_self c cs)
    have hcs : sep ∉ cs := fun hh => h (List.mem_cons.mpr (Or.inr hh))
    simp only [jsSplitChar, if_neg hc, ih hcs]

/-- Splitting at the first separator. -/
theorem jsSplitChar_append (sep : Char) :
    ∀ (a r : Str), sep ∉ a →
      jsSplitChar sep (a ++ sep :: r) = a :: jsSplitChar sep r := by
  intro a
  induction a with
  | nil =>
    intro r _
    simp [jsSplitChar]
  | cons c cs ih =>
    intro r h
    have hc : ¬ c = sep := fun hh => h (hh ▸ List.mem_cons_self c cs)
    have hcs : sep ∉ cs := fun hh => h (List.mem_cons.mpr (Or.inr hh))
    rw [List.cons_append]
    simp only [jsSplitChar, if_neg hc]
    rw [ih r hcs]

/-- Splitting a newline join recovers the fields. -/
theorem jsSplitChar_joinNL :
    ∀ (xs : List Str), (∀ x ∈ xs, '\n' ∉ x) →
      jsSplitChar '\n' (joinNL xs) = if xs = [] then [[]] else xs := by
  intro xs
  induction xs with
  | nil => intro _; rfl
  | cons x ys ih =>
    intro h
    cases ys with
    | nil =>
      simp only [joinNL]
      rw [jsSplitChar_of_not_mem '\n' x (h x (List.mem_cons_self x []))]
      simp
    | cons y zs =>
      simp only [joinNL]
      rw [jsSplitChar_append '\n' x _ (h x (List.mem_cons_self x (y :: zs)))]
      rw [ih (fun z hz => h z (List.mem_cons.mpr (Or.inr hz)))]
      simp

/-- Trimmed strings only lose characters. -/
theorem mem_jsTrimEnd (s : Str) (a : Char) (h : a ∈ jsTrimEnd s) : a ∈ s := by
  simp only [jsTrimEnd, List.mem_reverse] at h
  exact List.mem_reverse.mp ((List.dropWhile_sublist _).mem h)

/-- `jsTrimEnd` is idempotent. -/
theorem jsTrimEnd_idem (s : Str) : jsTrimEnd (jsTrimEnd s) = jsTrimEnd s := by
  simp only [jsTrimEnd, List.reverse_reverse]
  congr 1
  cases hd : s.reverse.dropWhile isSpaceCh with
  | nil => rfl
  | cons c cs =>
    have hc : isSpaceCh c = false := by
      have := List.head?_dropWhile_not isSpaceCh s.reverse
      rw [hd] at this
      simpa using this
    rw [List.dropWhile_cons_of_neg (by simp [hc])]

/-- Dropping leading whitespace past an all-whitespace prefix. -/
theorem dropWhile_append_of_all {p : Char → Bool} :
    ∀ (a s : Str), (∀ c ∈ a, p c = true) →
      (a ++ s).dropWhile p = s.dropWhile p := by
  intro a
  induction a with
  | nil => intro s _; rfl
  | cons c cs ih =>
    intro s h
    rw [List.cons_append, List.dropWhile_cons_of_pos (h c (List.mem_cons_self c cs))]
    exact ih s (fun x hx => h x (List.mem_cons.mpr (Or.inr hx)))

/-- `jsTrimStart` is idempotent. -/
theorem jsTrimStart_idem (s : Str) : jsTrimStart (jsTrimStart s) = jsTrimStart s := by
  simp only [jsTrimStart]
  cases hd : s.dropWhile isSpaceCh with
  | nil => rfl
  | cons c cs =>
    have hc : isSpaceCh c = false := by
      have := List.head?_dropWhile_not isSpaceCh s
      rw [hd] at this
      simpa using this
    rw [List.dropWhile_cons_of_neg (by simp [hc])]

/-- Every whitespace character of the four-space indent. -/
theorem indent4_all_space : ∀ c ∈ indent4, isSpaceCh c = true := by decide

/-- Normalizing an already normalized body line changes nothing. -/
theorem normalize_body_idem (l : Str) :
    indent4 ++ jsTrimStart (indent4 ++ jsTrimStart l) = indent4 ++ jsTrimStart l := by
  congr 1
  show List.dropWhile isSpaceCh (indent4 ++ List.dropWhile isSpaceCh l) =
    List.dropWhile isSpaceCh l
  rw [dropWhile_append_of_all indent4 (List.dropWhile isSpaceCh l) indent4_all_space]
  exact jsTrimStart_idem l

/-- Unfolding of `formatTransaction` on input whose first line carries a
date and does not trip the posting heuristic: the (right-trimmed) first
line is kept and the body is re-indented to exactly four spaces. -/
theorem formatTransaction_eq_of_date (t formattedDate fmt : Str)
    (hsp : hasThreeSpaces (jsTrimEnd ((jsSplitChar '\n' t).headD [])) = false)
    (hdate : extractAccepts (jsTrimEnd ((jsSplitChar '\n' t).headD [])) fmt = true) :
    formatTransaction t formattedDate fmt =
      jsTrimEnd ((jsSplitChar '\n' t).headD []) ++
        (if ((jsSplitChar '\n' t).drop 1).map (fun l => indent4 ++ jsTrimStart l) ≠ []
         then '\n' :: joinNL (((jsSplitChar '\n' t).drop 1).map
           (fun l => indent4 ++ jsTrimStart l))
         else []) := by
  simp only [List.headD_eq_head?] at hsp hdate ⊢
  unfold formatTransaction
  simp only [List.headD_eq_head?]
  rw [if_neg (by simp [hsp]), if_pos hdate]

/-- C4 counterexample.  The transaction text `2023-01-15   x` is its own
output (it is what `formatTransaction` produces for the dateless posting
text of two leading spaces) and its first line begins with a valid
`YYYY-MM-DD` date, yet re-applying `formatTransaction` changes it: the
posting heuristic (three or more consecutive whitespace characters) is
tested before the date detection, so the line is treated as dateless and
gets a second date line prefixed. -/
theorem c4_counterexample :
    formatTransaction "  x".data "2023-01-15".data "YYYY-MM-DD".data =
      "2023-01-15   x".data ∧
    extractAccepts "2023-01-15   x".data "YYYY-MM-DD".data = true ∧
    formatTransaction "2023-01-15   x".data "2023-01-15".data "YYYY-MM-DD".data ≠
      "2023-01-15   x".data := by
  refine ⟨by decide, by decide, by decide⟩

/-- C4 amended.  On transaction text whose (right-trimmed) first line
carries a date in the configured format and does not contain a run of
three or more whitespace characters, `formatTransaction` is idempotent:
the header is kept untouched and the body lines are normalized to
exactly four spaces of indentation, so a second application is the
identity.  (Without the three-space proviso the posting heuristic, which
is checked before the date detection, captures the line.) -/
theorem c4_amended_reimport_idempotent (t formattedDate fmt : Str)
    (hsp : hasThreeSpaces (jsTrimEnd ((jsSplitChar '\n' t).headD [])) = false)
    (hdate : extractAccepts (jsTrimEnd ((jsSplitChar '\n' t).headD [])) fmt = true) :
    formatTransaction (formatTransaction t formattedDate fmt) formattedDate fmt =
      formatTransaction t formattedDate fmt := by
  have hlines_ne : jsSplitChar '\n' t ≠ [] := jsSplitChar_ne_nil '\n' t
  have hhead_mem : (jsSplitChar '\n' t).headD [] ∈ jsSplitChar '\n' t := by
    cases hl : jsSplitChar '\n' t with
    | nil => exact absurd hl hlines_ne
    | cons a as => exact List.mem_cons_self a as
  have hfl_nl : '\n' ∉ jsTrimEnd ((jsSplitChar '\n' t).headD []) := by
    intro hmem
    exact jsSplitChar_mem_ne '\n' t _ hhead_mem (mem_jsTrimEnd _ _ hmem)
  have hnorm_nl : ∀ x ∈ ((jsSplitChar '\n' t).drop 1).map
      (fun l => indent4 ++ jsTrimStart l), '\n' ∉ x := by
    intro x hx hmem
    obtain ⟨l, hl, hxl⟩ := List.mem_map.mp hx
    subst hxl
    rcases List.mem_append.mp hmem with h4 | hts
    · exact absurd h4 (by decide)
    · have hlm : l ∈ jsSplitChar '\n' t := (List.drop_sublist 1 _).mem hl
      exact jsSplitChar_mem_ne '\n' t l hlm ((List.dropWhile_sublist _).mem hts)
  have hflfix : jsTrimEnd (jsTrimEnd ((jsSplitChar '\n' t).headD [])) =
      jsTrimEnd ((jsSplitChar '\n' t).headD []) := jsTrimEnd_idem _
  rw [formatTransaction_eq_of_date t formattedDate fmt hsp hdate]
  cases hn : ((jsSplitChar '\n' t).drop 1).map (fun l => indent4 ++ jsTrimStart l) with
  | nil =>
    rw [if_neg (by simp), List.append_nil]
    have hsplit2 : jsSplitChar '\n' (jsTrimEnd ((jsSplitChar '\n' t).headD [])) =
        [jsTrimEnd ((jsSplitChar '\n' t).headD [])] :=
      jsSplitChar_of_not_mem '\n' _ hfl_nl
    rw [formatTransaction_eq_of_date _ formattedDate fmt
      (by rw [hsplit2]; simpa [jsTrimEnd_idem] using hsp)
      (by rw [hsplit2]; simpa [jsTrimEnd_idem] using hdate)]
    rw [hsplit2]
    simp [jsTrimEnd_idem]
  | cons m ms =>
    rw [if_pos (by simp)]
    have hmm_nl : ∀ x ∈ m :: ms, '\n' ∉ x := by
      rw [← hn]
      exact hnorm_nl
    have hsplit2 : jsSplitChar '\n'
        (jsTrimEnd ((jsSplitChar '\n' t).headD []) ++ '\n' :: joinNL (m :: ms)) =
        jsTrimEnd ((jsSplitChar '\n' t).headD []) :: m :: ms := by
      rw [jsSplitChar_append '\n' _ _ hfl_nl,
        jsSplitChar_joinNL (m :: ms) hmm_nl, if_neg (by simp)]
    rw [formatTransaction_eq_of_date _ formattedDate fmt
      (by rw [hsplit2]; simpa [jsTrimEnd_idem] using hsp)
      (by rw [hsplit2]; simpa [jsTrimEnd_idem] using hdate)]
    rw [hsplit2]
    simp only [List.headD_cons, List.drop_one, List.tail_cons, jsTrimEnd_idem]
    have hmapid : (m :: ms).map (fun l => indent4 ++ jsTrimStart l) = m :: ms := by
      apply List.map_congr_left ?_ |>.trans (List.map_id _)
      intro l hl
      rw [← hn] at hl
      obtain ⟨l0, -, hxl⟩ := List.mem_map.mp hl
      subst hxl
      exact normalize_body_idem l0
    rw [hmapid]
    rw [if_pos (by simp)]

/-- C4 amended, witness: a normalized transaction with header and two
body lines is a fixed point. -/
theorem c4_amended_reimport_idempotent_witness :
    hasThreeSpaces (jsTrimEnd ((jsSplitChar '\n'
      "2023-01-15 Shop\n  Expenses:Food  $5\n  Assets:Cash  $-5".data).headD [])) = false ∧
    extractAccepts (jsTrimEnd ((jsSplitChar '\n'
      "2023-01-15 Shop\n  Expenses:Food  $5\n  Assets:Cash  $-5".data).headD []))
      "YYYY-MM-DD".data = true ∧
    formatTransaction (formatTransaction
        "2023-01-15 Shop\n  Expenses:Food  $5\n  Assets:Cash  $-5".data
        "2023-01-15".data "YYYY-MM-DD".data)
      "2023-01-15".data "YYYY-MM-DD".data =
    formatTransaction "2023-01-15 Shop\n  Expenses:Food  $5\n  Assets:Cash  $-5".data
      "2023-01-15".data "YYYY-MM-DD".data :=
  ⟨by decide, by decide,
    c4_amended_reimport_idempotent
      "2023-01-15 Shop\n  Expenses:Food  $5\n  Assets:Cash  $-5".data
      "2023-01-15".data "YYYY-MM-DD".data (by decide) (by decide)⟩

/-! ## Journal split lemmas -/

/-- Dropping the non-matching prefix does not change the number of
matching lines. -/
theorem countP_dropWhile_not (test : Str → Bool) (ls : List Str) :
    (ls.dropWhile (fun x => ¬ test x)).countP test = ls.countP test := by
  conv_rhs => rw [← List.takeWhile_append_dropWhile (p := fun x => ¬ test x) (l := ls)]
  rw [List.countP_append]
  have hz : (ls.takeWhile (fun x => ¬ test x)).countP test = 0 := by
    rw [List.countP_eq_zero]
    intro a ha
    have := List.mem_takeWhile_imp ha
    simpa using this
  omega

/-- Each group of the specified split corresponds to one matching line. -/
theorem specJournalGroups_length (test : Str → Bool) :
    ∀ lines : List Str, (specJournalGroups test lines).length = lines.countP test := by
  have H : ∀ n (lines : List Str), lines.length ≤ n →
      (specJournalGroups test lines).length = lines.countP test := by
    intro n
    induction n with
    | zero =>
      intro lines h
      have : lines = [] := List.length_eq_zero.mp (by omega)
      subst this
      simp [specJournalGroups]
    | succ n ih =>
      intro lines h
      match lines with
      | [] => simp [specJournalGroups]
      | l :: ls =>
        simp only [List.length_cons] at h
        by_cases ht : test l
        · simp only [specJournalGroups, if_pos ht, List.length_cons, List.countP_cons]
          have hdl : (ls.dropWhile (fun x => ¬ test x)).length ≤ n := by
            have := (List.dropWhile_sublist (l := ls) (p := fun x => ¬ test x)).length_le
            omega
          rw [ih _ hdl, countP_dropWhile_not]
        · simp only [specJournalGroups, if_neg ht, List.countP_cons]
          rw [ih ls (by omega)]
          simp [ht]
  intro lines
  exact H lines.length lines le_rfl

/-- The accumulator invariant of the line loop: starting empty it
produces exactly the described groups, and with an open transaction the
pending lines absorb the following indented lines up to the next match. -/
theorem parseJournalAux_spec (test : Str → Bool) :
    ∀ lines : List Str,
      (parseJournalAux test lines [] =
        (specJournalGroups test lines).map joinNL) ∧
      (∀ cur, cur ≠ [] → parseJournalAux test lines cur =
        joinNL (cur ++ (lines.takeWhile (fun x => ¬ test x)).filter isIndentedLine) ::
          (specJournalGroups test (lines.dropWhile (fun x => ¬ test x))).map joinNL) := by
  intro lines
  induction lines with
  | nil =>
    constructor
    · simp [parseJournalAux, specJournalGroups]
    · intro cur hcur
      simp [parseJournalAux, specJournalGroups, if_neg hcur]
  | cons l ls ih =>
    have hnotl : ∀ h : test l = true,
        (fun x => (¬ test x : Bool)) l = false := by
      intro h
      simp [h]
    constructor
    · by_cases ht : test l
      · simp only [parseJournalAux, if_pos ht, if_pos rfl, List.nil_append]
        rw [ih.2 [l] (by simp)]
        simp only [specJournalGroups, if_pos ht, List.map_cons, List.singleton_append]
        simp
      · simp only [parseJournalAux, if_neg ht]
        rw [if_neg (by simp)]
        rw [ih.1]
        simp only [specJournalGroups, if_neg ht]
    · intro cur hcur
      by_cases ht : test l
      · simp only [parseJournalAux, if_pos ht, if_neg hcur]
        rw [ih.2 [l] (by simp)]
        rw [List.takeWhile_cons_of_neg (by simp [ht]), List.dropWhile_cons_of_neg (by simp [ht])]
        simp only [List.filter_nil, List.append_nil, List.singleton_append,
          specJournalGroups, if_pos ht, List.map_cons, List.cons_append, List.nil_append]
      · by_cases hi : isIndentedLine l
        · simp only [parseJournalAux, if_neg ht, if_pos (And.intro hcur hi)]
          rw [ih.2 (cur ++ [l]) (by simp)]
          rw [List.takeWhile_cons_of_pos (by simp [ht]), List.dropWhile_cons_of_pos (by simp [ht])]
          rw [List.filter_cons_of_pos hi]
          rw [← List.append_cons cur l]
        · simp only [parseJournalAux, if_neg ht]
          rw [if_neg (by simp [hi])]
          rw [ih.2 cur hcur]
          rw [List.takeWhile_cons_of_pos (by simp [ht]), List.dropWhile_cons_of_pos (by simp [ht])]
          rw [List.filter_cons_of_neg (by simp [hi])]

/-- C6.  The whole-journal split returns exactly one transaction per
line matched by the compiled date matcher: each transaction is its
verbatim date line followed by exactly the subsequent space-or-tab
indented lines up to the next date line or the end of input, joined by
newlines; all other lines are dropped; and a text with no date match
yields the empty list. -/
theorem c6_parse_journal_split (content fmt : Str) :
    parseJournalTransactions content fmt =
      (specJournalGroups (matchesDateLine fmt) (jsSplitChar '\n' content)).map joinNL ∧
    (parseJournalTransactions content fmt).length =
      (jsSplitChar '\n' content).countP (matchesDateLine fmt) ∧
    ((jsSplitChar '\n' content).countP (matchesDateLine fmt) = 0 →
      parseJournalTransactions content fmt = []) := by
  have h1 : parseJournalTransactions content fmt =
      (specJournalGroups (matchesDateLine fmt) (jsSplitChar '\n' content)).map joinNL :=
    (parseJournalAux_spec (matchesDateLine fmt) (jsSplitChar '\n' content)).1
  have h2 : (parseJournalTransactions content fmt).length =
      (jsSplitChar '\n' content).countP (matchesDateLine fmt) := by
    rw [h1, List.length_map, specJournalGroups_length]
  refine ⟨h1, h2, ?_⟩
  intro h0
  have := h2.trans h0
  exact List.length_eq_zero.mp this

/-- C6 witness: a text whose lines match no date yields the empty list
(the zero-match hypothesis is discharged concretely). -/
theorem c6_parse_journal_split_witness :
    (jsSplitChar '\n' "only a comment\nno dates".data).countP
      (matchesDateLine "YYYY-MM-DD".data) = 0 ∧
    parseJournalTransactions "only a comment\nno dates".data "YYYY-MM-DD".data = [] :=
  ⟨by decide,
   (c6_parse_journal_split "only a comment\nno dates".data "YYYY-MM-DD".data).2.2
     (by decide)⟩

/-- The inclusive range test is vacuously false under an invalid lower
bound. -/
theorem betweenDays_none_lo (d hi : Option HDate) : betweenDays d none hi = false := by
  cases d <;> cases hi <;> rfl

/-- C10.  The date-range filter reads its bounds with the fixed,
non-strict YYYY-MM-DD format, independently of `dateFormat`: two bound
strings with the same YYYY-MM-DD reading select exactly the same files
(for every file list and every dateFormat), and a lower bound with no
YYYY-MM-DD reading empties the selection.  Candidate filenames, by
contrast, are parsed strictly under `dateFormat` inside the filter. -/
theorem c10_filter_bounds_fixed_format (files : List Str)
    (fromA fromB toA toB fmt : Str)
    (hfrom : momentLenientYMD fromA = momentLenientYMD fromB)
    (hto : momentLenientYMD toA = momentLenientYMD toB) :
    filterFilesByDateRange files fromA toA fmt =
      filterFilesByDateRange files fromB toB fmt ∧
    (momentLenientYMD fromA = none → filterFilesByDateRange files fromA toA fmt = []) := by
  constructor
  · simp only [filterFilesByDateRange, hfrom, hto]
  · intro h0
    simp only [filterFilesByDateRange, h0]
    rw [List.filter_eq_nil_iff]
    intro a ha
    simp only [betweenDays_none_lo]
    split_ifs <;> try simp
    split <;> simp

/-- C10 witness: the two spellings 2023-01-15 and 2023-1-15 of the lower
bound have the same YYYY-MM-DD reading and select the same file, while a
bound in another format empties the selection. -/
theorem c10_filter_bounds_fixed_format_witness :
    momentLenientYMD "2023-01-15".data = momentLenientYMD "2023-1-15".data ∧
    filterFilesByDateRange ["n/2023-01-10.md".data, "n/2023-01-20.md".data]
      "2023-01-15".data "2023-01-25".data "YYYY-MM-DD".data =
      filterFilesByDateRange ["n/2023-01-10.md".data, "n/2023-01-20.md".data]
        "2023-1-15".data "2023-01-25".data "YYYY-MM-DD".data ∧
    momentLenientYMD "not a date".data = none ∧
    filterFilesByDateRange ["n/2023-01-10.md".data, "n/2023-01-20.md".data]
      "not a date".data "2023-01-25".data "YYYY-MM-DD".data = [] :=
  ⟨by decide,
   (c10_filter_bounds_fixed_format ["n/2023-01-10.md".data, "n/2023-01-20.md".data]
     "2023-01-15".data "2023-1-15".data "2023-01-25".data "2023-01-25".data
     "YYYY-MM-DD".data (by decide) (by decide)).1,
   by decide,
   (c10_filter_bounds_fixed_format ["n/2023-01-10.md".data, "n/2023-01-20.md".data]
     "not a date".data "not a date".data "2023-01-25".data "2023-01-25".data
     "YYYY-MM-DD".data (by decide) (by decide)).2 (by decide)⟩

theorem goodSegs_tail (s : Seg) (r : List Seg) (h : goodSegs (s :: r) = true) :
    goodSegs r = true := by
  cases s <;> simp only [goodSegs, Bool.and_eq_true] at h <;> first | exact h.2 | exact h

theorem replaceAllSub_skip_char (p : Char) (ps rep : Str) (c : Char) (cs : Str) (h : c ≠ p) :
    replaceAllSub (p :: ps) rep (c :: cs) = c :: replaceAllSub (p :: ps) rep cs := by
  rw [replaceAllSub_eq, if_neg]
  intro hc
  have h2 := hc.2
  simp only [List.isPrefixOf, Bool.and_eq_true, beq_iff_eq] at h2
  exact h h2.1.symm

theorem replaceAllSub_skip_all (p : Char) (ps rep : Str) (l t : Str)
    (h : l.all (fun c => c ≠ p) = true) :
    replaceAllSub (p :: ps) rep (l ++ t) = l ++ replaceAllSub (p :: ps) rep t := by
  induction l with
  | nil => rfl
  | cons a l ih =>
    simp only [List.all_cons, Bool.and_eq_true, decide_eq_true_eq] at h
    rw [List.cons_append, replaceAllSub_skip_char p ps rep a _ h.1, ih h.2]
    rfl

theorem isPrefixOf_append_self (l t : Str) : List.isPrefixOf l (l ++ t) = true := by
  induction l with
  | nil => simp [List.isPrefixOf]
  | cons a l ih => simp [List.isPrefixOf, ih]

theorem replaceAllSub_at_pat (pat rep t : Str) (h : pat ≠ []) :
    replaceAllSub pat rep (pat ++ t) = rep ++ replaceAllSub pat rep t := by
  match pat with
  | p :: ps =>
    have hdrop : List.drop (p :: ps).length (p :: (ps ++ t)) = t := by
      simp only [List.length_cons, List.drop_succ_cons]
      exact List.drop_left ps t
    have hpre : List.isPrefixOf (p :: ps) (p :: (ps ++ t)) = true :=
      isPrefixOf_append_self (p :: ps) t
    rw [List.cons_append, replaceAllSub_eq, if_pos ⟨h, hpre⟩, hdrop]

theorem replaceAllSub_yyyy_yy (rep t : Str) (h : t.head? ≠ some 'Y') :
    replaceAllSub ('Y' :: 'Y' :: 'Y' :: 'Y' :: []) rep ('Y' :: 'Y' :: t) =
      'Y' :: 'Y' :: replaceAllSub ('Y' :: 'Y' :: 'Y' :: 'Y' :: []) rep t := by
  cases t with
  | nil =>
    rw [replaceAllSub_eq, if_neg (by decide), replaceAllSub_eq, if_neg (by decide)]
  | cons a u =>
    have hne : a ≠ 'Y' := by simpa using h
    rw [replaceAllSub_eq, if_neg, replaceAllSub_eq, if_neg]
    · intro hc
      have h2 := hc.2
      simp only [List.isPrefixOf, Bool.and_eq_true, beq_iff_eq, beq_self_eq_true,
        true_and] at h2
      exact hne h2.1.symm
    · intro hc
      have h2 := hc.2
      simp only [List.isPrefixOf, Bool.and_eq_true, beq_iff_eq, beq_self_eq_true,
        true_and] at h2
      exact hne h2.1.symm

theorem renderWith_segRaw_head_ne_Y (r : List Seg)
    (h : (match r with
          | Seg.y4 :: _ => false
          | Seg.y2 :: _ => false
          | _ => true) = true) :
    (renderWith segRaw r).head? ≠ some 'Y' := by
  cases r with
  | nil => simp [renderWith]
  | cons s r' =>
    cases s <;> simp_all [renderWith, segRaw]

theorem replaceAllSub_renderWith_skip (p : Char) (ps rep : Str) (f : Seg → Str)
    (hf : ∀ s, (f s).all (fun c => c ≠ p) = true) (segs : List Seg) :
    replaceAllSub (p :: ps) rep (renderWith f segs) = renderWith f segs := by
  induction segs with
  | nil => rfl
  | cons s r ih =>
    show replaceAllSub (p :: ps) rep (f s ++ renderWith f r) = f s ++ renderWith f r
    rw [replaceAllSub_skip_all p ps rep (f s) _ (hf s), ih]

theorem replaceAllSub_renderWith_one (p : Char) (ps rep : Str) (f g : Seg → Str) (tgt : Seg)
    (htgt : f tgt = p :: ps) (hgt : g tgt = rep)
    (hoth : ∀ s, s ≠ tgt → (f s).all (fun c => c ≠ p) = true ∧ g s = f s)
    (segs : List Seg) :
    replaceAllSub (p :: ps) rep (renderWith f segs) = renderWith g segs := by
  induction segs with
  | nil => rfl
  | cons s r ih =>
    show replaceAllSub (p :: ps) rep (f s ++ renderWith f r) = g s ++ renderWith g r
    by_cases hs : s = tgt
    · subst hs
      rw [htgt, hgt, replaceAllSub_at_pat _ _ _ (by simp), ih]
    · rw [replaceAllSub_skip_all p ps rep (f s) _ (hoth s hs).1, ih, (hoth s hs).2]

theorem chainStep1 (segs : List Seg) (h : goodSegs segs = true) :
    replaceAllSub ('Y' :: 'Y' :: 'Y' :: 'Y' :: []) (dRep ['4']) (renderWith segRaw segs) =
      renderWith seg1 segs := by
  induction segs with
  | nil => rfl
  | cons s r ih =>
    have hr : goodSegs r = true := goodSegs_tail s r h
    cases s with
    | y4 =>
      show replaceAllSub ('Y' :: 'Y' :: 'Y' :: 'Y' :: []) (dRep ['4'])
          (('Y' :: 'Y' :: 'Y' :: 'Y' :: []) ++ renderWith segRaw r) =
        dRep ['4'] ++ renderWith seg1 r
      rw [replaceAllSub_at_pat _ _ _ (by simp), ih hr]
    | y2 =>
      simp only [goodSegs, Bool.and_eq_true] at h
      have hhead := renderWith_segRaw_head_ne_Y r h.1
      show replaceAllSub ('Y' :: 'Y' :: 'Y' :: 'Y' :: []) (dRep ['4'])
          ('Y' :: 'Y' :: renderWith segRaw r) =
        'Y' :: 'Y' :: renderWith seg1 r
      rw [replaceAllSub_yyyy_yy _ _ hhead, ih hr]
    | m2 =>
      show replaceAllSub ('Y' :: 'Y' :: 'Y' :: 'Y' :: []) (dRep ['4'])
          (('M' :: 'M' :: []) ++ renderWith segRaw r) =
        ('M' :: 'M' :: []) ++ renderWith seg1 r
      rw [replaceAllSub_skip_all _ _ _ _ _ (by decide), ih hr]
    | d2 =>
      show replaceAllSub ('Y' :: 'Y' :: 'Y' :: 'Y' :: []) (dRep ['4'])
          (('D' :: 'D' :: []) ++ renderWith segRaw r) =
        ('D' :: 'D' :: []) ++ renderWith seg1 r
      rw [replaceAllSub_skip_all _ _ _ _ _ (by decide), ih hr]
    | dash =>
      show replaceAllSub ('Y' :: 'Y' :: 'Y' :: 'Y' :: []) (dRep ['4'])
          (('-' :: []) ++ renderWith segRaw r) =
        ('-' :: []) ++ renderWith seg1 r
      rw [replaceAllSub_skip_all _ _ _ _ _ (by decide), ih hr]
    | slash =>
      show replaceAllSub ('Y' :: 'Y' :: 'Y' :: 'Y' :: []) (dRep ['4'])
          (('/' :: []) ++ renderWith segRaw r) =
        ('/' :: []) ++ renderWith seg1 r
      rw [replaceAllSub_skip_all _ _ _ _ _ (by decide), ih hr]

theorem chainStep2 (segs : List Seg) :
    replaceAllSub ('Y' :: 'Y' :: []) (dRep ['2']) (renderWith seg1 segs) =
      renderWith seg2 segs :=
  replaceAllSub_renderWith_one 'Y' ('Y' :: []) (dRep ['2']) seg1 seg2 Seg.y2 rfl rfl
    (by intro s hs; cases s <;> first | (exact absurd rfl hs) | exact ⟨by decide, rfl⟩) segs

theorem chainStep3 (segs : List Seg) :
    replaceAllSub ('M' :: 'M' :: []) (dRep ['2']) (renderWith seg2 segs) =
      renderWith seg3 segs :=
  replaceAllSub_renderWith_one 'M' ('M' :: []) (dRep ['2']) seg2 seg3 Seg.m2 rfl rfl
    (by intro s hs; cases s <;> first | (exact absurd rfl hs) | exact ⟨by decide, rfl⟩) segs

theorem chainStep4 (segs : List Seg) :
    replaceAllSub ('M' :: []) (dRep ('1' :: ',' :: '2' :: [])) (renderWith seg3 segs) =
      renderWith seg3 segs :=
  replaceAllSub_renderWith_skip 'M' [] (dRep ('1' :: ',' :: '2' :: [])) seg3
    (by intro s; cases s <;> decide) segs

theorem chainStep5 (segs : List Seg) :
    replaceAllSub ('D' :: 'D' :: []) (dRep ['2']) (renderWith seg3 segs) =
      renderWith seg5 segs :=
  replaceAllSub_renderWith_one 'D' ('D' :: []) (dRep ['2']) seg3 seg5 Seg.d2 rfl rfl
    (by intro s hs; cases s <;> first | (exact absurd rfl hs) | exact ⟨by decide, rfl⟩) segs

theorem chainStep6 (segs : List Seg) :
    replaceAllSub ('D' :: []) (dRep ('1' :: ',' :: '2' :: [])) (renderWith seg5 segs) =
      renderWith seg5 segs :=
  replaceAllSub_renderWith_skip 'D' [] (dRep ('1' :: ',' :: '2' :: [])) seg5
    (by intro s; cases s <;> decide) segs

theorem chainStep7 (segs : List Seg) :
    replaceAllSub ('/' :: []) ('\\' :: '/' :: []) (renderWith seg5 segs) =
      renderWith seg7 segs :=
  replaceAllSub_renderWith_one '/' [] ('\\' :: '/' :: []) seg5 seg7 Seg.slash rfl rfl
    (by intro s hs; cases s <;> first | (exact absurd rfl hs) | exact ⟨by decide, rfl⟩) segs

theorem chainStep8 (segs : List Seg) :
    replaceAllSub ('.' :: []) ('\\' :: '.' :: []) (renderWith seg7 segs) =
      renderWith seg7 segs :=
  replaceAllSub_renderWith_skip '.' [] ('\\' :: '.' :: []) seg7
    (by intro s; cases s <;> decide) segs

theorem chainStep9 (segs : List Seg) :
    replaceAllSub ('-' :: []) ('\\' :: '-' :: []) (renderWith seg7 segs) =
      renderWith segPat segs :=
  replaceAllSub_renderWith_one '-' [] ('\\' :: '-' :: []) seg7 segPat Seg.dash rfl rfl
    (by intro s hs; cases s <;> first | (exact absurd rfl hs) | exact ⟨by decide, rfl⟩) segs

theorem createDateRegexPatternStr_segs (segs : List Seg) (h : goodSegs segs = true) :
    createDateRegexPatternStr (renderWith segRaw segs) = renderWith segPat segs := by
  simp only [createDateRegexPatternStr]
  rw [chainStep1 segs h, chainStep2, chainStep3, chainStep4, chainStep5, chainStep6,
    chainStep7, chainStep8, chainStep9]

theorem replaceClass_append (cls : Char → Bool) (rep a b : Str) :
    replaceClass cls rep (a ++ b) = replaceClass cls rep a ++ replaceClass cls rep b := by
  induction a with
  | nil => rfl
  | cons c a ih => simp [replaceClass, ih]

theorem escapeClass_append (cls : Char → Bool) (a b : Str) :
    escapeClass cls (a ++ b) = escapeClass cls a ++ escapeClass cls b := by
  induction a with
  | nil => rfl
  | cons c a ih => simp [escapeClass, ih]

theorem extractDatePatternStr_segs (segs : List Seg) :
    extractDatePatternStr (renderWith segRaw segs) = renderWith segExtract segs := by
  induction segs with
  | nil => rfl
  | cons s r ih =>
    show extractDatePatternStr (segRaw s ++ renderWith segRaw r) =
      segExtract s ++ renderWith segExtract r
    simp only [extractDatePatternStr] at ih ⊢
    rw [replaceClass_append, escapeClass_append, ih]
    congr 1
    cases s <;> decide

theorem parseRegexItems_digits_brace (d : Char) (t : Str) (hd : isDigitCh d = true) :
    parseRegexItems ('\\' :: 'd' :: lbrace :: d :: rbrace :: t) =
      (parseRegexItems t).map (fun l => RItem.digits (d.toNat - 48) :: l) := by
  unfold parseRegexItems
  rw [show List.length ('\\' :: 'd' :: lbrace :: d :: rbrace :: t) + 1 = t.length + 5 + 1 by
    simp only [List.length_cons]]
  generalize hF : t.length + 5 = F
  simp only [parseRegexItemsAux]
  simp only [if_true, and_true]
  rw [if_pos hd]
  congr 1
  exact parseRegexItemsAux_fuel F (t.length + 1) t (by omega) (by omega)

theorem parseRegexItems_esc_lit (c : Char) (t : Str) (hc : ¬ c = 'd') :
    parseRegexItems ('\\' :: c :: t) =
      (parseRegexItems t).map (fun l => RItem.litc c :: l) := by
  unfold parseRegexItems
  rw [show List.length ('\\' :: c :: t) + 1 = t.length + 2 + 1 by
    simp only [List.length_cons]]
  generalize hF : t.length + 2 = F
  simp only [parseRegexItemsAux]
  simp only [if_true]
  rw [if_neg hc]
  congr 1
  exact parseRegexItemsAux_fuel F (t.length + 1) t (by omega) (by omega)

theorem parseRegexItems_dig_plain (t : Str) (h : t.head? ≠ some lbrace) :
    parseRegexItems ('\\' :: 'd' :: t) =
      (parseRegexItems t).map (fun l => RItem.digits 1 :: l) := by
  unfold parseRegexItems
  cases t with
  | nil => rfl
  | cons b rest3 =>
    have hb : ¬ b = lbrace := by simpa using h
    rw [show List.length ('\\' :: 'd' :: b :: rest3) + 1 = rest3.length + 3 + 1 by
      simp only [List.length_cons]]
    generalize hF : rest3.length + 3 = F
    simp only [parseRegexItemsAux]
    simp only [if_true]
    rw [if_neg hb]
    congr 1
    exact parseRegexItemsAux_fuel F ((b :: rest3).length + 1) (b :: rest3)
      (by simp only [List.length_cons]; omega) (by simp only [List.length_cons]; omega)

theorem head_cons_ne_lbrace (c : Char) (t : Str) (h : c ≠ lbrace) :
    (c :: t).head? ≠ some lbrace := by
  simp [h]

theorem renderWith_segExtract_head (r : List Seg) :
    (renderWith segExtract r).head? ≠ some lbrace := by
  cases r with
  | nil => simp [renderWith]
  | cons s r' => cases s <;> simp [renderWith, segExtract] <;> decide

theorem parse_matcher_segs (segs : List Seg) :
    parseRegexItems (renderWith segPat segs) = some (itemsWith segItemM segs) := by
  induction segs with
  | nil => rfl
  | cons s r ih =>
    cases s with
    | y4 =>
      show parseRegexItems ('\\' :: 'd' :: lbrace :: '4' :: rbrace :: renderWith segPat r) =
        some (RItem.digits 4 :: itemsWith segItemM r)
      rw [parseRegexItems_digits_brace '4' _ (by decide), ih]
      rfl
    | y2 =>
      show parseRegexItems ('\\' :: 'd' :: lbrace :: '2' :: rbrace :: renderWith segPat r) =
        some (RItem.digits 2 :: itemsWith segItemM r)
      rw [parseRegexItems_digits_brace '2' _ (by decide), ih]
      rfl
    | m2 =>
      show parseRegexItems ('\\' :: 'd' :: lbrace :: '2' :: rbrace :: renderWith segPat r) =
        some (RItem.digits 2 :: itemsWith segItemM r)
      rw [parseRegexItems_digits_brace '2' _ (by decide), ih]
      rfl
    | d2 =>
      show parseRegexItems ('\\' :: 'd' :: lbrace :: '2' :: rbrace :: renderWith segPat r) =
        some (RItem.digits 2 :: itemsWith segItemM r)
      rw [parseRegexItems_digits_brace '2' _ (by decide), ih]
      rfl
    | dash =>
      show parseRegexItems ('\\' :: '-' :: renderWith segPat r) =
        some (RItem.litc '-' :: itemsWith segItemM r)
      rw [parseRegexItems_esc_lit '-' _ (by decide), ih]
      rfl
    | slash =>
      show parseRegexItems ('\\' :: '/' :: renderWith segPat r) =
        some (RItem.litc '/' :: itemsWith segItemM r)
      rw [parseRegexItems_esc_lit '/' _ (by decide), ih]
      rfl

theorem parse_extract_segs (segs : List Seg) :
    parseRegexItems (renderWith segExtract segs) = some (itemsWith segItemE segs) := by
  induction segs with
  | nil => rfl
  | cons s r ih =>
    cases s with
    | y4 =>
      show parseRegexItems
          ('\\' :: 'd' :: '\\' :: 'd' :: '\\' :: 'd' :: '\\' :: 'd' :: renderWith segExtract r) =
        some (RItem.digits 1 :: RItem.digits 1 :: RItem.digits 1 :: RItem.digits 1 ::
          itemsWith segItemE r)
      rw [parseRegexItems_dig_plain _ (head_cons_ne_lbrace _ _ (by decide)), parseRegexItems_dig_plain _ (head_cons_ne_lbrace _ _ (by decide)),
        parseRegexItems_dig_plain _ (head_cons_ne_lbrace _ _ (by decide)),
        parseRegexItems_dig_plain _ (renderWith_segExtract_head r), ih]
      rfl
    | y2 =>
      show parseRegexItems ('\\' :: 'd' :: '\\' :: 'd' :: renderWith segExtract r) =
        some (RItem.digits 1 :: RItem.digits 1 :: itemsWith segItemE r)
      rw [parseRegexItems_dig_plain _ (head_cons_ne_lbrace _ _ (by decide)),
        parseRegexItems_dig_plain _ (renderWith_segExtract_head r), ih]
      rfl
    | m2 =>
      show parseRegexItems ('\\' :: 'd' :: '\\' :: 'd' :: renderWith segExtract r) =
        some (RItem.digits 1 :: RItem.digits 1 :: itemsWith segItemE r)
      rw [parseRegexItems_dig_plain _ (head_cons_ne_lbrace _ _ (by decide)),
        parseRegexItems_dig_plain _ (renderWith_segExtract_head r), ih]
      rfl
    | d2 =>
      show parseRegexItems ('\\' :: 'd' :: '\\' :: 'd' :: renderWith segExtract r) =
        some (RItem.digits 1 :: RItem.digits 1 :: itemsWith segItemE r)
      rw [parseRegexItems_dig_plain _ (head_cons_ne_lbrace _ _ (by decide)),
        parseRegexItems_dig_plain _ (renderWith_segExtract_head r), ih]
      rfl
    | dash =>
      show parseRegexItems ('\\' :: '-' :: renderWith segExtract r) =
        some (RItem.litc '-' :: itemsWith segItemE r)
      rw [parseRegexItems_esc_lit '-' _ (by decide), ih]
      rfl
    | slash =>
      show parseRegexItems ('\\' :: '/' :: renderWith segExtract r) =
        some (RItem.litc '/' :: itemsWith segItemE r)
      rw [parseRegexItems_esc_lit '/' _ (by decide), ih]
      rfl

theorem matchItems_digits_add (a b : Nat) (rest : List RItem) (s : Str) :
    matchItems (.digits a :: .digits b :: rest) s = matchItems (.digits (a + b) :: rest) s := by
  rw [matchItems_digits, matchItems_digits, matchItems_digits]
  have hdd : (s.drop a).drop b = s.drop (a + b) := by
    rw [List.drop_drop, Nat.add_comm]
  rw [hdd]
  rw [Bool.eq_iff_iff]
  simp only [List.take_add, List.all_append, List.length_append, List.length_take,
    List.length_drop, Bool.and_eq_true, decide_eq_true_eq]
  constructor
  · rintro ⟨⟨hl1, hd1⟩, ⟨hl2, hd2⟩, hm⟩
    exact ⟨⟨by omega, hd1, hd2⟩, hm⟩
  · rintro ⟨⟨hl, hd1, hd2⟩, hm⟩
    exact ⟨⟨by omega, hd1⟩, ⟨by omega, hd2⟩, hm⟩

theorem matchItems_segItems (segs : List Seg) :
    ∀ s : Str, matchItems (itemsWith segItemM segs) s = matchItems (itemsWith segItemE segs) s := by
  induction segs with
  | nil => intro s; rfl
  | cons sg r ih =>
    intro s
    cases sg with
    | y4 =>
      show matchItems (.digits 4 :: itemsWith segItemM r) s =
        matchItems (.digits 1 :: .digits 1 :: .digits 1 :: .digits 1 :: itemsWith segItemE r) s
      rw [matchItems_digits_add 1 1, matchItems_digits_add (1 + 1) 1,
        matchItems_digits_add (1 + 1 + 1) 1]
      have h4 : (1 + 1 + 1 + 1 : Nat) = 4 := rfl
      rw [h4, matchItems_digits, matchItems_digits]
      congr 1
      exact ih _
    | y2 =>
      show matchItems (.digits 2 :: itemsWith segItemM r) s =
        matchItems (.digits 1 :: .digits 1 :: itemsWith segItemE r) s
      rw [matchItems_digits_add 1 1]
      have h2 : (1 + 1 : Nat) = 2 := rfl
      rw [h2, matchItems_digits, matchItems_digits]
      congr 1
      exact ih _
    | m2 =>
      show matchItems (.digits 2 :: itemsWith segItemM r) s =
        matchItems (.digits 1 :: .digits 1 :: itemsWith segItemE r) s
      rw [matchItems_digits_add 1 1]
      have h2 : (1 + 1 : Nat) = 2 := rfl
      rw [h2, matchItems_digits, matchItems_digits]
      congr 1
      exact ih _
    | d2 =>
      show matchItems (.digits 2 :: itemsWith segItemM r) s =
        matchItems (.digits 1 :: .digits 1 :: itemsWith segItemE r) s
      rw [matchItems_digits_add 1 1]
      have h2 : (1 + 1 : Nat) = 2 := rfl
      rw [h2, matchItems_digits, matchItems_digits]
      congr 1
      exact ih _
    | dash =>
      show matchItems (.litc '-' :: itemsWith segItemM r) s =
        matchItems (.litc '-' :: itemsWith segItemE r) s
      rw [matchItems_litc, matchItems_litc]
      cases s with
      | nil => rfl
      | cons x u =>
        dsimp only
        rw [ih u]
    | slash =>
      show matchItems (.litc '/' :: itemsWith segItemM r) s =
        matchItems (.litc '/' :: itemsWith segItemE r) s
      rw [matchItems_litc, matchItems_litc]
      cases s with
      | nil => rfl
      | cons x u =>
        dsimp only
        rw [ih u]

/-- C8 counterexample: the two regex constructions are not equivalent.
For the format DD.MM.YYYY the extractor leaves the dot unescaped, so it
matches any character (here the letters a and b), while the compiled
matcher escapes it; for the format YYYY-M-D the compiled matcher turns M
and D into one-or-two-digit classes while the extractor demands exactly
one digit, so they disagree on 2023-12-3. -/
theorem c8_counterexample :
    extractAccepts "01a02b2023".data "DD.MM.YYYY".data = true ∧
    matchesDateLine "DD.MM.YYYY".data "01a02b2023".data = false ∧
    matchesDateLine "YYYY-M-D".data "2023-12-3".data = true ∧
    extractAccepts "2023-12-3".data "YYYY-M-D".data = false := by
  decide

/-- C8 (amended): on every format assembled from the fixed-width tokens
YYYY, YY, MM, DD and the literal separators dash and slash (with no
two-digit-year token directly followed by another year token), the
leading-date extractor and the compiled date matcher accept exactly the
same input lines, and the separators match only their own literal
character. -/
theorem c8_amended_matcher_extractor_agree (segs : List Seg) (h : goodSegs segs = true)
    (line : Str) :
    matchesDateLine (renderWith segRaw segs) line =
      extractAccepts line (renderWith segRaw segs) := by
  unfold matchesDateLine extractAccepts
  rw [createDateRegexPatternStr_segs segs h, extractDatePatternStr_segs segs,
    parse_matcher_segs segs, parse_extract_segs segs]
  exact matchItems_segItems segs line

/-- C8 witness: the matcher and the extractor agree on the format
YYYY-MM-DD and the line 2023-01-15. -/
theorem c8_amended_matcher_extractor_agree_witness :
    goodSegs [Seg.y4, Seg.dash, Seg.m2, Seg.dash, Seg.d2] = true ∧
    renderWith segRaw [Seg.y4, Seg.dash, Seg.m2, Seg.dash, Seg.d2] = "YYYY-MM-DD".data ∧
    matchesDateLine (renderWith segRaw [Seg.y4, Seg.dash, Seg.m2, Seg.dash, Seg.d2])
        "2023-01-15".data =
      extractAccepts "2023-01-15".data
        (renderWith segRaw [Seg.y4, Seg.dash, Seg.m2, Seg.dash, Seg.d2]) :=
  ⟨by decide, by decide,
   c8_amended_matcher_extractor_agree [Seg.y4, Seg.dash, Seg.m2, Seg.dash, Seg.d2]
     (by decide) "2023-01-15".data⟩

theorem isDigitCh_digitChar (k : Nat) (h : k ≤ 9) : isDigitCh (digitChar k) = true := by
  interval_cases k <;> decide

theorem natDigits_all_digits (n : Nat) : (natDigits n).all isDigitCh = true := by
  induction n using Nat.strong_induction_on with
  | _ n ih =>
    rw [natDigits_eq]
    by_cases hn : n < 10
    · simp [hn, isDigitCh_digitChar n (by omega)]
    · rw [if_neg hn]
      simp [List.all_append, isDigitCh_digitChar (n % 10) (by omega), ih (n / 10) (by omega)]

theorem natDigits_length_le : ∀ (k n : Nat), 1 ≤ k → n < 10 ^ k → (natDigits n).length ≤ k := by
  intro k
  induction k with
  | zero => intro n h; omega
  | succ k ih =>
    intro n _ hn
    rw [natDigits_eq]
    by_cases h10 : n < 10
    · simp [h10]
    · rw [if_neg h10]
      have hk : 1 ≤ k := by
        by_contra hk0
        have : k = 0 := by omega
        subst this
        simp [pow_succ, pow_zero] at hn
        omega
      have hdiv : n / 10 < 10 ^ k :=
        Nat.div_lt_of_lt_mul (by rw [← pow_succ']; exact hn)
      have := ih (n / 10) hk hdiv
      simp only [List.length_append, List.length_cons, List.length_nil]
      omega

theorem natDigits_length_two (n : Nat) (h1 : 10 ≤ n) (h2 : n ≤ 99) :
    (natDigits n).length = 2 := by
  rw [natDigits_eq, if_neg (by omega)]
  have : n / 10 < 10 := by omega
  rw [natDigits_eq, if_pos this]
  rfl

theorem digitsToNat_zeros_append (k : Nat) (s : Str) :
    digitsToNat (List.replicate k '0' ++ s) = digitsToNat s := by
  induction k with
  | zero => rfl
  | succ k ih =>
    simp only [List.replicate_succ, List.cons_append, digitsToNat, List.foldl_cons]
    have h0 : (0 * 10 + ('0'.toNat - 48)) = 0 := by decide
    rw [h0]
    exact ih

theorem padZeros_length (w : Nat) (s : Str) (h : s.length ≤ w) :
    (padZeros w s).length = w := by
  simp only [padZeros, List.length_append, List.length_replicate]
  omega

theorem padZeros_all (w : Nat) (s : Str) (h : s.all isDigitCh = true) :
    (padZeros w s).all isDigitCh = true := by
  simp only [padZeros, List.all_append, Bool.and_eq_true]
  refine ⟨?_, h⟩
  simp only [List.all_eq_true]
  intro c hc
  rw [List.eq_of_mem_replicate hc]
  decide

theorem digitsToNat_padZeros (w : Nat) (s : Str) :
    digitsToNat (padZeros w s) = digitsToNat s := by
  simp only [padZeros]
  exact digitsToNat_zeros_append _ s

theorem takeDigits_exact (n : Nat) (p rest : Str) (hlen : p.length = n)
    (hdig : p.all isDigitCh = true) :
    takeDigits n (p ++ rest) = some (digitsToNat p, rest) := by
  have ht : (p ++ rest).take n = p := by rw [← hlen]; exact List.take_left p rest
  have hdr : (p ++ rest).drop n = rest := by rw [← hlen]; exact List.drop_left p rest
  simp only [takeDigits, ht, hdr]
  rw [if_pos ⟨hlen, hdig⟩]

theorem takeOneTwo_two (p rest : Str) (hlen : p.length = 2) (hdig : p.all isDigitCh = true) :
    takeOneTwoDigits (p ++ rest) = some (digitsToNat p, rest) := by
  simp only [takeOneTwoDigits, takeDigits_exact 2 p rest hlen hdig]

theorem takeOneTwo_one (c : Char) (rest : Str) (hc : isDigitCh c = true)
    (hrest : rest = [] ∨ ∃ x u, rest = x :: u ∧ isDigitCh x = false) :
    takeOneTwoDigits (c :: rest) = some (digitsToNat [c], rest) := by
  have h2 : takeDigits 2 (c :: rest) = none := by
    rcases hrest with h | ⟨x, u, hxu, hx⟩
    · subst h
      simp [takeDigits]
    · subst hxu
      simp only [takeDigits]
      rw [if_neg]
      intro hcon
      have := hcon.2
      simp only [List.take, List.all_cons, Bool.and_eq_true] at this
      rw [hx] at this
      exact Bool.false_ne_true this.2.1
  have h1 : takeDigits 1 (c :: rest) = some (digitsToNat [c], rest) := by
    have := takeDigits_exact 1 [c] rest (by simp) (by simp [hc])
    simpa using this
  simp only [takeOneTwoDigits, h2, h1]

theorem toksOK_tail (t : MToken) (ts : List MToken) (h : toksOK (t :: ts) = true) :
    toksOK ts = true := by
  cases t with
  | y4 => exact h
  | m2 => exact h
  | d2 => exact h
  | m1 => simp only [toksOK, Bool.and_eq_true] at h; exact h.2
  | d1 => simp only [toksOK, Bool.and_eq_true] at h; exact h.2
  | lit c => simp only [toksOK, Bool.and_eq_true] at h; exact h.2
  | y2 => exact absurd h (by simp [toksOK])

theorem parseTokensAux_render (d : HDate) (hy : d.year ≤ 9999)
    (hm12 : d.month ≤ 12) (hd31 : d.day ≤ 31) :
    ∀ toks, toksOK toks = true → ∀ oy om od : Option Nat,
      parseTokensAux toks ((toks.map (renderToken d)).flatten) oy om od =
        (match (if hasY4 toks then some d.year else oy),
               (if hasMonthTok toks then some d.month else om),
               (if hasDayTok toks then some d.day else od) with
         | some y, some m, some dd =>
             if validDate y m dd then some (⟨y, m, dd⟩ : HDate) else none
         | _, _, _ => none) := by
  intro toks
  induction toks with
  | nil =>
    intro _ oy om od
    simp [parseTokensAux, hasY4, hasMonthTok, hasDayTok]
  | cons t ts ih =>
    intro h oy om od
    have hts : toksOK ts = true := toksOK_tail t ts h
    cases t with
    | y4 =>
      show parseTokensAux (.y4 :: ts)
          (padZeros 4 (natDigits d.year) ++ (ts.map (renderToken d)).flatten) oy om od = _
      simp only [parseTokensAux]
      rw [takeDigits_exact 4 _ _
        (padZeros_length 4 _ (natDigits_length_le 4 d.year (by omega) (by omega)))
        (padZeros_all 4 _ (natDigits_all_digits _))]
      simp only [Option.some_bind]
      rw [digitsToNat_padZeros, digitsToNat_natDigits]
      rw [ih hts (some d.year) om od]
      simp [hasY4, hasMonthTok, hasDayTok]
    | m2 =>
      show parseTokensAux (.m2 :: ts)
          (padZeros 2 (natDigits d.month) ++ (ts.map (renderToken d)).flatten) oy om od = _
      simp only [parseTokensAux]
      rw [takeDigits_exact 2 _ _
        (padZeros_length 2 _ (natDigits_length_le 2 d.month (by omega) (by omega)))
        (padZeros_all 2 _ (natDigits_all_digits _))]
      simp only [Option.some_bind]
      rw [digitsToNat_padZeros, digitsToNat_natDigits]
      rw [ih hts oy (some d.month) od]
      simp [hasY4, hasMonthTok, hasDayTok]
    | d2 =>
      show parseTokensAux (.d2 :: ts)
          (padZeros 2 (natDigits d.day) ++ (ts.map (renderToken d)).flatten) oy om od = _
      simp only [parseTokensAux]
      rw [takeDigits_exact 2 _ _
        (padZeros_length 2 _ (natDigits_length_le 2 d.day (by omega) (by omega)))
        (padZeros_all 2 _ (natDigits_all_digits _))]
      simp only [Option.some_bind]
      rw [digitsToNat_padZeros, digitsToNat_natDigits]
      rw [ih hts oy om (some d.day)]
      simp [hasY4, hasMonthTok, hasDayTok]
    | m1 =>
      simp only [toksOK, Bool.and_eq_true] at h
      have hrest : ((ts.map (renderToken d)).flatten = []) ∨
          ∃ x u, (ts.map (renderToken d)).flatten = x :: u ∧ isDigitCh x = false := by
        cases ts with
        | nil => exact Or.inl rfl
        | cons t2 ts2 =>
          cases t2 with
          | lit c =>
            have h2 := hts
            simp only [toksOK, Bool.and_eq_true] at h2
            exact Or.inr ⟨c, _, rfl, by simpa using h2.1⟩
          | y4 => exact absurd h.1 (by simp [nextLitOrEnd])
          | y2 => exact absurd h.1 (by simp [nextLitOrEnd])
          | m2 => exact absurd h.1 (by simp [nextLitOrEnd])
          | m1 => exact absurd h.1 (by simp [nextLitOrEnd])
          | d2 => exact absurd h.1 (by simp [nextLitOrEnd])
          | d1 => exact absurd h.1 (by simp [nextLitOrEnd])
      have hone : takeOneTwoDigits (natDigits d.month ++ (ts.map (renderToken d)).flatten) =
          some (d.month, (ts.map (renderToken d)).flatten) := by
        by_cases hten : 10 ≤ d.month
        · have := takeOneTwo_two (natDigits d.month) ((ts.map (renderToken d)).flatten)
            (natDigits_length_two d.month hten (by omega)) (natDigits_all_digits _)
          rwa [digitsToNat_natDigits] at this
        · have hnd : natDigits d.month = [digitChar d.month] := by
            rw [natDigits_eq, if_pos (by omega)]
          rw [hnd, List.cons_append, List.nil_append]
          have := takeOneTwo_one (digitChar d.month) ((ts.map (renderToken d)).flatten)
            (isDigitCh_digitChar _ (by omega)) hrest
          rwa [show digitsToNat [digitChar d.month] = d.month from by
            rw [← hnd, digitsToNat_natDigits]] at this
      show parseTokensAux (.m1 :: ts)
          (natDigits d.month ++ (ts.map (renderToken d)).flatten) oy om od = _
      simp only [parseTokensAux]
      rw [hone]
      simp only [Option.some_bind]
      rw [ih h.2 oy (some d.month) od]
      simp [hasY4, hasMonthTok, hasDayTok]
    | d1 =>
      simp only [toksOK, Bool.and_eq_true] at h
      have hrest : ((ts.map (renderToken d)).flatten = []) ∨
          ∃ x u, (ts.map (renderToken d)).flatten = x :: u ∧ isDigitCh x = false := by
        cases ts with
        | nil => exact Or.inl rfl
        | cons t2 ts2 =>
          cases t2 with
          | lit c =>
            have h2 := hts
            simp only [toksOK, Bool.and_eq_true] at h2
            exact Or.inr ⟨c, _, rfl, by simpa using h2.1⟩
          | y4 => exact absurd h.1 (by simp [nextLitOrEnd])
          | y2 => exact absurd h.1 (by simp [nextLitOrEnd])
          | m2 => exact absurd h.1 (by simp [nextLitOrEnd])
          | m1 => exact absurd h.1 (by simp [nextLitOrEnd])
          | d2 => exact absurd h.1 (by simp [nextLitOrEnd])
          | d1 => exact absurd h.1 (by simp [nextLitOrEnd])
      have hone : takeOneTwoDigits (natDigits d.day ++ (ts.map (renderToken d)).flatten) =
          some (d.day, (ts.map (renderToken d)).flatten) := by
        by_cases hten : 10 ≤ d.day
        · have := takeOneTwo_two (natDigits d.day) ((ts.map (renderToken d)).flatten)
            (natDigits_length_two d.day hten (by omega)) (natDigits_all_digits _)
          rwa [digitsToNat_natDigits] at this
        · have hnd : natDigits d.day = [digitChar d.day] := by
            rw [natDigits_eq, if_pos (by omega)]
          rw [hnd, List.cons_append, List.nil_append]
          have := takeOneTwo_one (digitChar d.day) ((ts.map (renderToken d)).flatten)
            (isDigitCh_digitChar _ (by omega)) hrest
          rwa [show digitsToNat [digitChar d.day] = d.day from by
            rw [← hnd, digitsToNat_natDigits]] at this
      show parseTokensAux (.d1 :: ts)
          (natDigits d.day ++ (ts.map (renderToken d)).flatten) oy om od = _
      simp only [parseTokensAux]
      rw [hone]
      simp only [Option.some_bind]
      rw [ih h.2 oy om (some d.day)]
      simp [hasY4, hasMonthTok, hasDayTok]
    | lit c =>
      simp only [toksOK, Bool.and_eq_true] at h
      show parseTokensAux (.lit c :: ts) (c :: (ts.map (renderToken d)).flatten) oy om od = _
      simp only [parseTokensAux]
      rw [if_pos trivial]
      rw [ih h.2 oy om od]
      simp [hasY4, hasMonthTok, hasDayTok]
    | y2 => exact absurd h (by simp [toksOK])

theorem daysInMonth_le_31 (y m : Nat) : daysInMonth y m ≤ 31 := by
  unfold daysInMonth
  split_ifs <;> omega

theorem momentStrictParse_momentFormat (d : HDate) (fmt : Str)
    (htoks : toksOK (tokenizeFormat fmt) = true)
    (hY : hasY4 (tokenizeFormat fmt) = true)
    (hM : hasMonthTok (tokenizeFormat fmt) = true)
    (hD : hasDayTok (tokenizeFormat fmt) = true)
    (hy : d.year ≤ 9999)
    (hv : validDate d.year d.month d.day = true) :
    momentStrictParse (momentFormat d fmt) fmt = some d := by
  have hb : d.month ≤ 12 ∧ d.day ≤ 31 := by
    simp only [validDate, decide_eq_true_eq] at hv
    exact ⟨hv.2.1, le_trans hv.2.2.2 (daysInMonth_le_31 _ _)⟩
  unfold momentStrictParse momentFormat
  rw [parseTokensAux_render d hy hb.1 hb.2 _ htoks none none none]
  rw [if_pos hY, if_pos hM, if_pos hD]
  dsimp only
  rw [if_pos hv]

theorem getLastD_irrel (l : List Str) (h : l ≠ []) (d1 d2 : Str) :
    l.getLastD d1 = l.getLastD d2 := by
  cases l with
  | nil => exact absurd rfl h
  | cons a l => rw [List.getLastD_cons, List.getLastD_cons]

theorem jsSplitChar_two_le (sep : Char) : ∀ (s : Str), sep ∈ s → 2 ≤ (jsSplitChar sep s).length := by
  intro s
  induction s with
  | nil => intro h; simp at h
  | cons c cs ih =>
    intro h
    simp only [jsSplitChar]
    by_cases hc : c = sep
    · rw [if_pos hc]
      have h1 : 1 ≤ (jsSplitChar sep cs).length :=
        List.length_pos.mpr (jsSplitChar_ne_nil sep cs)
      simp only [List.length_cons]
      omega
    · rw [if_neg hc]
      have hmem : sep ∈ cs := by
        rcases List.mem_cons.mp h with h1 | h1
        · exact absurd h1.symm hc
        · exact h1
      have h2 := ih hmem
      cases hsp : jsSplitChar sep cs with
      | nil => exact absurd hsp (jsSplitChar_ne_nil sep cs)
      | cons g gs =>
        rw [hsp] at h2
        dsimp only
        simp only [List.length_cons] at h2 ⊢
        omega

theorem getLastD_jsSplit_append (B : Str) (hB : '/' ∉ B) :
    ∀ X : Str, (jsSplitChar '/' (X ++ '/' :: B)).getLastD [] = B := by
  intro X
  induction X with
  | nil =>
    show (jsSplitChar '/' ('/' :: B)).getLastD [] = B
    simp [jsSplitChar, jsSplitChar_of_not_mem '/' B hB, List.getLastD]
  | cons a X' ih =>
    show (jsSplitChar '/' (a :: (X' ++ '/' :: B))).getLastD [] = B
    simp only [jsSplitChar]
    by_cases ha : a = '/'
    · rw [if_pos ha, List.getLastD_cons]
      exact ih
    · rw [if_neg ha]
      have hmem : '/' ∈ X' ++ '/' :: B := by simp
      have h2 := jsSplitChar_two_le '/' _ hmem
      cases hsp : jsSplitChar '/' (X' ++ '/' :: B) with
      | nil => exact absurd hsp (jsSplitChar_ne_nil _ _)
      | cons g gs =>
        rw [hsp] at h2 ih
        dsimp only
        simp only [List.length_cons] at h2
        have hgs : gs ≠ [] := by
          intro hn
          subst hn
          simp at h2
        rw [List.getLastD_cons] at ih ⊢
        rw [getLastD_irrel gs hgs (a :: g) g]
        exact ih

theorem isPrefixOf_slashslash_false (B : Str) (hB : B.all (fun c => c ≠ '/') = true) :
    List.isPrefixOf ('/' :: '/' :: []) ('/' :: B) = false := by
  cases B with
  | nil => decide
  | cons b B' =>
    simp only [List.all_cons, Bool.and_eq_true, decide_eq_true_eq] at hB
    simp [List.isPrefixOf]
    exact fun he => hB.1 he.symm

theorem collapseSlashes_slash_tail (B : Str) (hB : B.all (fun c => c ≠ '/') = true) :
    collapseSlashes ('/' :: B) = '/' :: B := by
  show replaceAllSub ('/' :: '/' :: []) ['/'] ('/' :: B) = '/' :: B
  rw [replaceAllSub_eq, if_neg]
  · have h2 : replaceAllSub ('/' :: '/' :: []) ['/'] B = B := by
      have := replaceAllSub_skip_all '/' ('/' :: []) ['/'] B [] hB
      simpa [replaceAllSub_nil] using this
    rw [h2]
  · intro hc
    have := hc.2
    rw [isPrefixOf_slashslash_false B hB] at this
    simp at this

theorem collapseSlashes_keeps_tail (B : Str) (hB : B.all (fun c => c ≠ '/') = true) :
    ∀ (n : Nat) (A : Str), A.length ≤ n →
      ∃ A2 : Str, collapseSlashes (A ++ '/' :: B) = A2 ++ '/' :: B := by
  intro n
  induction n with
  | zero =>
    intro A hA
    have hA0 : A = [] := List.length_eq_zero.mp (by omega)
    subst hA0
    exact ⟨[], by simpa using collapseSlashes_slash_tail B hB⟩
  | succ n ihn =>
    intro A hA
    cases A with
    | nil => exact ⟨[], by simpa using collapseSlashes_slash_tail B hB⟩
    | cons a A' =>
      show ∃ A2, replaceAllSub ('/' :: '/' :: []) ['/'] (a :: (A' ++ '/' :: B)) = A2 ++ '/' :: B
      by_cases hpre : List.isPrefixOf ('/' :: '/' :: []) (a :: (A' ++ '/' :: B)) = true
      · rw [replaceAllSub_eq, if_pos ⟨by simp, hpre⟩]
        cases A' with
        | nil =>
          have h2 : replaceAllSub ('/' :: '/' :: []) ['/'] B = B := by
            have := replaceAllSub_skip_all '/' ('/' :: []) ['/'] B [] hB
            simpa [replaceAllSub_nil] using this
          refine ⟨[], ?_⟩
          show ['/'] ++ replaceAllSub ('/' :: '/' :: [])  ['/']
              ((a :: ([] ++ '/' :: B)).drop 2) = [] ++ '/' :: B
          simp only [List.nil_append, List.drop_succ_cons, List.drop_zero]
          rw [h2]
          rfl
        | cons a2 A'' =>
          obtain ⟨A2, hA2⟩ := ihn A'' (by
            simp only [List.length_cons] at hA
            omega)
          have hA2' : replaceAllSub ('/' :: '/' :: []) ['/'] (A'' ++ '/' :: B) =
              A2 ++ '/' :: B := hA2
          refine ⟨'/' :: A2, ?_⟩
          show ['/'] ++ replaceAllSub ('/' :: '/' :: []) ['/']
              ((a :: (a2 :: A'' ++ '/' :: B)).drop 2) = ('/' :: A2) ++ '/' :: B
          simp only [List.cons_append, List.drop_succ_cons, List.drop_zero]
          rw [hA2']
          rfl
      · rw [replaceAllSub_eq, if_neg (by intro hc; exact hpre hc.2)]
        obtain ⟨A2, hA2⟩ := ihn A' (by
          simp only [List.length_cons] at hA
          omega)
        have hA2' : replaceAllSub ('/' :: '/' :: []) ['/'] (A' ++ '/' :: B) =
            A2 ++ '/' :: B := hA2
        exact ⟨a :: A2, by rw [hA2']; rfl⟩

theorem stripMdCI_append_md (X : Str) :
    stripMdCI (X ++ '.' :: 'm' :: 'd' :: []) = X := by
  have he : endsWithMdCI (X ++ '.' :: 'm' :: 'd' :: []) = true := by
    unfold endsWithMdCI
    rw [List.reverse_append]
    rw [List.take_left' (by rfl : ('.' :: 'm' :: 'd' :: [] : Str).reverse.length = 3)]
    decide
  unfold stripMdCI
  rw [if_pos he]
  have hl : (X ++ '.' :: 'm' :: 'd' :: []).length - 3 = X.length := by simp
  rw [hl]
  exact List.take_left X _

theorem tokenizeFormat_lits : ∀ (fmt : Str) (c : Char),
    MToken.lit c ∈ tokenizeFormat fmt → c ∈ fmt := by
  intro fmt
  induction fmt using tokenizeFormat.induct <;>
    intro c hc <;>
    simp only [tokenizeFormat, List.mem_cons] at hc <;>
    (simp_all [List.mem_cons]; try tauto)

theorem digit_ne_slash (c : Char) (h : isDigitCh c = true) : c ≠ '/' := by
  intro he
  subst he
  exact absurd h (by decide)

theorem momentFormat_no_slash (d : HDate) (fmt : Str)
    (hf : fmt.all (fun c => c ≠ '/') = true) :
    (momentFormat d fmt).all (fun c => c ≠ '/') = true := by
  unfold momentFormat
  simp only [List.all_eq_true, List.mem_flatten, List.mem_map, decide_eq_true_eq]
  rintro x ⟨l, ⟨t, ht, hrt⟩, hx⟩
  subst hrt
  cases t with
  | y4 =>
    have := List.all_eq_true.mp (padZeros_all 4 _ (natDigits_all_digits d.year)) x hx
    exact digit_ne_slash x (by simpa using this)
  | y2 =>
    have := List.all_eq_true.mp (padZeros_all 2 _ (natDigits_all_digits (d.year % 100))) x hx
    exact digit_ne_slash x (by simpa using this)
  | m2 =>
    have := List.all_eq_true.mp (padZeros_all 2 _ (natDigits_all_digits d.month)) x hx
    exact digit_ne_slash x (by simpa using this)
  | m1 =>
    have := List.all_eq_true.mp (natDigits_all_digits d.month) x hx
    exact digit_ne_slash x (by simpa using this)
  | d2 =>
    have := List.all_eq_true.mp (padZeros_all 2 _ (natDigits_all_digits d.day)) x hx
    exact digit_ne_slash x (by simpa using this)
  | d1 =>
    have := List.all_eq_true.mp (natDigits_all_digits d.day) x hx
    exact digit_ne_slash x (by simpa using this)
  | lit ch =>
    have hxc : x = ch := by simpa [renderToken] using hx
    subst hxc
    have hmem : x ∈ fmt := tokenizeFormat_lits fmt x ht
    have := List.all_eq_true.mp hf x hmem
    simpa using this

/-- C9 counterexample: for the two-digit-year format YY-MM-DD the date
1950-01-01 resolves to the note 50-01-01.md, whose basename parses back
to 2050-01-01 (moment maps two-digit years up to 68 into the 2000s), so
the round trip does not recover the original date. -/
theorem c9_counterexample :
    getDateFromFilename
        (calculateDailyNotePathInfo ⟨1950, 1, 1⟩ "notes".data "YY-MM-DD".data).targetPath
        "YY-MM-DD".data = some ⟨2050, 1, 1⟩ ∧
    (⟨2050, 1, 1⟩ : HDate) ≠ (⟨1950, 1, 1⟩ : HDate) ∧
    validDate 1950 1 1 = true ∧
    "YY-MM-DD".data.all (fun c => c ≠ '/') = true := by
  decide

/-- C9 (amended): for every real calendar date with a four-digit year,
every base folder, and every slash-free format whose token list has a
YYYY token, a month token, a day token, no two-digit-year token,
non-digit literal separators, and a separator (or the end) after every
one-or-two-digit token, resolving the note path and then taking the
basename, stripping .md and strictly parsing with the same format
recovers the date. -/
theorem c9_amended_note_path_round_trip (d : HDate) (baseFolder fmt : Str)
    (hslash : fmt.all (fun c => c ≠ '/') = true)
    (htoks : toksOK (tokenizeFormat fmt) = true)
    (hY : hasY4 (tokenizeFormat fmt) = true)
    (hM : hasMonthTok (tokenizeFormat fmt) = true)
    (hD : hasDayTok (tokenizeFormat fmt) = true)
    (hy : d.year ≤ 9999)
    (hv : validDate d.year d.month d.day = true) :
    getDateFromFilename (calculateDailyNotePathInfo d baseFolder fmt).targetPath fmt =
      some d := by
  have hall : ∀ c ∈ fmt, c ≠ '/' := by
    intro c hcm
    have := List.all_eq_true.mp hslash c hcm
    simpa using this
  have hanyslash : (fmt.any fun c => c = '/') = false := by
    rw [← Bool.not_eq_true, List.any_eq_true]
    rintro ⟨x, hx, hxe⟩
    exact hall x hx (by simpa using hxe)
  have hBall : (momentFormat d fmt ++ '.' :: 'm' :: 'd' :: []).all
      (fun c => c ≠ '/') = true := by
    rw [List.all_append, momentFormat_no_slash d fmt hslash]
    decide
  have hBnm : '/' ∉ (momentFormat d fmt ++ '.' :: 'm' :: 'd' :: []) := by
    intro hmem
    have := List.all_eq_true.mp hBall _ hmem
    simp at this
  have hpath : (calculateDailyNotePathInfo d baseFolder fmt).targetPath =
      collapseSlashes (collapseSlashes baseFolder ++ '/' ::
        (momentFormat d fmt ++ '.' :: 'm' :: 'd' :: [])) := by
    simp only [calculateDailyNotePathInfo, hanyslash]
    simp
  rw [hpath]
  obtain ⟨A2, hA2⟩ := collapseSlashes_keeps_tail _ hBall
    (collapseSlashes baseFolder).length (collapseSlashes baseFolder) le_rfl
  rw [hA2]
  simp only [getDateFromFilename]
  rw [getLastD_jsSplit_append _ hBnm A2, stripMdCI_append_md]
  exact momentStrictParse_momentFormat d fmt htoks hY hM hD hy hv

/-- C9 witness: the round trip holds for 2023-01-15 under base folder
base and format YYYY-MM-DD. -/
theorem c9_amended_note_path_round_trip_witness :
    toksOK (tokenizeFormat "YYYY-MM-DD".data) = true ∧
    validDate 2023 1 15 = true ∧
    getDateFromFilename
        (calculateDailyNotePathInfo ⟨2023, 1, 15⟩ "base".data "YYYY-MM-DD".data).targetPath
        "YYYY-MM-DD".data = some ⟨2023, 1, 15⟩ :=
  ⟨by decide, by decide,
   c9_amended_note_path_round_trip ⟨2023, 1, 15⟩ "base".data "YYYY-MM-DD".data
     (by decide) (by decide) (by decide) (by decide) (by decide) (by decide) (by decide)⟩
end ObsHledger
